import Mathlib

/-!
Verification of the deferred-execution task-graph design behind the
dask `delayed` tutorial (notebook `04-Imperative.ipynb`).

The notebook's own code cells (`inc`, `add`, the two example graphs `dsk`,
`estimate_pi`, `is_inside_circle`) are embedded directly from the source.
The scheduler/executor, lazy-handle and backend layers are not part of the
repository (they live in the external dask library), so they are modelled
from the specification (sections 3-7 of the design document): a graph is a
mapping from task identifiers to task specifications, the scheduler
repeatedly dispatches all ready tasks (tasks whose dependencies have all
produced results) until done, failing fast with a cyclic-graph error when
no task is ready, and each task executes by substituting resolved
dependency results into its argument list and invoking the stored callable.
-/

namespace DaskTutorial

/-- Task identifiers are strings, as in the notebook's dictionaries. -/
abbrev TaskId := String

/-- Task-level errors raised by callables are plain messages. -/
abbrev Err := String

/-- Runtime values flowing through a graph: integers, strings (file names),
and lists (Python lists / rows of a loaded csv file). -/
inductive Value where
  | vint : Int → Value
  | vstr : String → Value
  | vlist : List Value → Value

/-- A callable takes the positional argument values and either returns a
value or fails; failure models a Python exception. -/
abbrev Callable := List Value → Except Err Value

/-- Modelled from the spec: an argument of a task specification is either a
literal value or a reference to another TaskId (a dependency edge). -/
inductive BaseArg where
  | lit : Value → BaseArg
  | ref : TaskId → BaseArg

/-- Modelled from the spec: a positional argument is a base argument or --
as in the notebook's `('total': (sum, ['na', 'nb', 'nc']))` task -- a flat
list whose elements are literals or TaskId references, resolved
elementwise before the callable is invoked. -/
inductive Arg where
  | base : BaseArg → Arg
  | arr : List BaseArg → Arg

/-- Modelled from the spec: a graph node is either a literal value (like
`'a': 1` in the notebook) or a callable plus its ordered argument list. -/
inductive TaskSpec where
  | lit : Value → TaskSpec
  | task : Callable → List Arg → TaskSpec

/-- Modelled from the spec: a Graph is a mapping from TaskId to TaskSpec,
embedded as an association list (insertion order gives the deterministic
tie-break order the spec asks of the serial backend). -/
abbrev Graph := List (TaskId × TaskSpec)

/-- Look a task up in a graph. -/
def lookupTask (g : Graph) (t : TaskId) : Option TaskSpec :=
  g.lookup t

/-- TaskId references appearing in one base argument. -/
def baseRefs : BaseArg → List TaskId
  | BaseArg.lit _ => []
  | BaseArg.ref t => [t]

/-- TaskId references appearing in one argument. -/
def argRefs : Arg → List TaskId
  | Arg.base b => baseRefs b
  | Arg.arr l => l.flatMap baseRefs

/-- All TaskId references of a task specification, in positional order. -/
def specRefs : TaskSpec → List TaskId
  | TaskSpec.lit _ => []
  | TaskSpec.task _ args => args.flatMap argRefs

/-- Modelled from the spec: the direct dependencies of a task are the
referenced TaskIds that exist in the graph. -/
def depsOf (g : Graph) (t : TaskId) : List TaskId :=
  match lookupTask g t with
  | none => []
  | some s => (specRefs s).filter (fun d => (lookupTask g d).isSome)

/-- One step of the reachability closure: keep the current tasks and add
their direct dependencies, removing duplicates. -/
def reachStep (g : Graph) (s : List TaskId) : List TaskId :=
  (s ++ s.flatMap (depsOf g)).dedup

/-- Modelled from the spec: the subgraph reachable from the requested
targets.  Iterating the one-step closure as many times as the graph has
entries reaches every dependency, since a dependency chain cannot be
longer than the number of tasks. -/
def reach (g : Graph) (targets : List TaskId) : List TaskId :=
  (reachStep g)^[g.length] ((targets.filter (fun t => (lookupTask g t).isSome)).dedup)

/-- Modelled from the spec: a task is ready once every TaskId it depends on
has produced a result (is in the done list). -/
def isReady (g : Graph) (done : List TaskId) (t : TaskId) : Bool :=
  (depsOf g t).all (fun d => done.contains d)

/-- `respectsDeps g done order = true` states that dispatching the tasks of
`order` in list order, after the tasks of `done` already produced results,
never dispatches a task before all of its dependencies: each task is ready
with respect to the results produced before it. -/
def respectsDeps (g : Graph) : List TaskId → List TaskId → Bool
  | _, [] => true
  | done, t :: rest => isReady g done t && respectsDeps g (done ++ [t]) rest

/-- Modelled from the spec: structural scheduler errors.  `cyclic t` is the
CyclicGraphError naming the offending TaskId `t`. -/
inductive SchedErr where
  | cyclic : TaskId → SchedErr
deriving DecidableEq, Repr

/-- Modelled from the spec: the dependency-driven dispatch loop.  Each
round collects every currently-ready pending task, hands the batch to the
backend (whose completion order is `ord i` for round `i`), appends the
completions to `done`, and repeats.  If no pending task is ready the
reachable subgraph has a cycle (or depends on one) and the loop fails fast
with a CyclicGraphError naming the first stuck task. -/
def roundsAux (g : Graph) (ord : Nat → List TaskId → List TaskId) :
    Nat → Nat → List TaskId → List TaskId → Except SchedErr (List TaskId)
  | _, _, done, [] => Except.ok done
  | 0, _, _, t :: _ => Except.error (SchedErr.cyclic t)
  | fuel + 1, i, done, t :: rest =>
    let pending := t :: rest
    let rdy := pending.filter (isReady g done)
    if rdy.isEmpty then Except.error (SchedErr.cyclic t)
    else roundsAux g ord fuel (i + 1) (done ++ ord i rdy)
      (pending.filter (fun u => !(isReady g done u)))

/-- Modelled from the spec: compute a dispatch order for the subgraph
reachable from the targets, or fail with CyclicGraphError before any task
is dispatched.  One round per pending task is always enough fuel because
every successful round dispatches at least one task. -/
def topoOrderWith (g : Graph) (ord : Nat → List TaskId → List TaskId)
    (targets : List TaskId) : Except SchedErr (List TaskId) :=
  let pending := reach g targets
  roundsAux g ord pending.length 0 [] pending

/-- The serial backend dispatches ready tasks one at a time in the
deterministic tie-break order (list order). -/
def serialOrd : Nat → List TaskId → List TaskId := fun _ l => l

/-- Modelled from the spec: the execution backends; they differ only in
concurrency strategy (worker counts), never in results. -/
inductive BackendKind where
  | serial : BackendKind
  | threadPool : Nat → BackendKind
  | processPool : Nat → BackendKind

/-- The completion order a backend imposes on each dispatched batch: the
serial backend runs the batch in deterministic list order, while the
concurrent pools may complete a batch in any order, captured by an
interleaving oracle. -/
def oracleFor : BackendKind → (Nat → List TaskId → List TaskId) →
    (Nat → List TaskId → List TaskId)
  | BackendKind.serial, _ => serialOrd
  | BackendKind.threadPool _, oracle => oracle
  | BackendKind.processPool _, oracle => oracle

/-- The default dispatch order: serial backend. -/
def topoOrder (g : Graph) (targets : List TaskId) : Except SchedErr (List TaskId) :=
  topoOrderWith g serialOrd targets

/-- The scheduler's result table: for each dispatched TaskId, either its
value or its failure record (spec: ExecutionResult). -/
abbrev Table := List (TaskId × Except Err Value)

/-- Resolve one base argument against the result table: literals stand
as-is, a reference is replaced by the referenced task's result (a failed
dependency propagates its failure). -/
def resolveBase (tbl : Table) : BaseArg → Except Err Value
  | BaseArg.lit v => Except.ok v
  | BaseArg.ref t =>
    match tbl.lookup t with
    | some r => r
    | none => Except.error ("missing task: " ++ t)

/-- Resolve the elements of a list argument. -/
def resolveBases (tbl : Table) : List BaseArg → Except Err (List Value)
  | [] => Except.ok []
  | b :: rest =>
    match resolveBase tbl b with
    | Except.error e => Except.error e
    | Except.ok v =>
      match resolveBases tbl rest with
      | Except.error e => Except.error e
      | Except.ok vs => Except.ok (v :: vs)

/-- Resolve one positional argument: a list argument is resolved
elementwise and passed as one list value. -/
def resolveArg (tbl : Table) : Arg → Except Err Value
  | Arg.base b => resolveBase tbl b
  | Arg.arr l => (resolveBases tbl l).map Value.vlist

/-- Resolve the whole positional argument list, in original order. -/
def resolveArgs (tbl : Table) : List Arg → Except Err (List Value)
  | [] => Except.ok []
  | a :: rest =>
    match resolveArg tbl a with
    | Except.error e => Except.error e
    | Except.ok v =>
      match resolveArgs tbl rest with
      | Except.error e => Except.error e
      | Except.ok vs => Except.ok (v :: vs)

/-- Modelled from the spec: a task executes by substituting resolved
dependency results into its argument list (in original positional order)
and invoking the stored callable; a failed or unresolved dependency makes
the task fail without invoking the callable. -/
def execTask (g : Graph) (tbl : Table) (t : TaskId) : Except Err Value :=
  match lookupTask g t with
  | none => Except.error ("missing task: " ++ t)
  | some (TaskSpec.lit v) => Except.ok v
  | some (TaskSpec.task f args) =>
    match resolveArgs tbl args with
    | Except.error e => Except.error e
    | Except.ok vs => f vs

/-- Execute the tasks of `order` in order, accumulating the result table. -/
def execAllAux (g : Graph) (tbl : Table) : List TaskId → Table
  | [] => tbl
  | t :: rest => execAllAux g (tbl ++ [(t, execTask g tbl t)]) rest

/-- The result table obtained by executing a dispatch order from scratch. -/
def execAll (g : Graph) (order : List TaskId) : Table :=
  execAllAux g [] order

/-- Read a target's result out of the table; a target that was never
dispatched (it does not exist in the graph) is a recorded failure. -/
def tableGet (tbl : Table) (t : TaskId) : Except Err Value :=
  match tbl.lookup t with
  | some r => r
  | none => Except.error ("missing task: " ++ t)

/-- Modelled from the spec: `run(graph, target, backend)` -- compute a
dispatch order for the reachable subgraph (failing fast with
CyclicGraphError before any task runs), execute it on the chosen backend,
and return the target's value or recorded failure. -/
def runWith (bk : BackendKind) (oracle : Nat → List TaskId → List TaskId)
    (g : Graph) (target : TaskId) : Except SchedErr (Except Err Value) :=
  match topoOrderWith g (oracleFor bk oracle) [target] with
  | Except.error e => Except.error e
  | Except.ok order => Except.ok (tableGet (execAll g order) target)

/-- Modelled from the spec: the multi-target entry point; the result is a
per-target result/failure map. -/
def runTargetsWith (bk : BackendKind) (oracle : Nat → List TaskId → List TaskId)
    (g : Graph) (targets : List TaskId) :
    Except SchedErr (List (TaskId × Except Err Value)) :=
  match topoOrderWith g (oracleFor bk oracle) targets with
  | Except.error e => Except.error e
  | Except.ok order =>
    Except.ok (targets.map (fun t => (t, tableGet (execAll g order) t)))

/-- `run` on the default serial backend. -/
def run (g : Graph) (target : TaskId) : Except SchedErr (Except Err Value) :=
  runWith BackendKind.serial serialOrd g target

/-- Multi-target `run` on the default serial backend. -/
def runTargets (g : Graph) (targets : List TaskId) :
    Except SchedErr (List (TaskId × Except Err Value)) :=
  runTargetsWith BackendKind.serial serialOrd g targets

/-- Modelled from the spec: `compute(graph, target)` delegates to the
scheduler and hands back the (read-only) graph together with the result;
the graph is threaded through the execution loop as explicit state so that
"the graph is unchanged by a compute call" is a statement about this
definition rather than a convention. -/
def execAllSt (g : Graph) (tbl : Table) : List TaskId → Table × Graph
  | [] => (tbl, g)
  | t :: rest => execAllSt g (tbl ++ [(t, execTask g tbl t)]) rest

/-- Modelled from the spec: `compute` returns the target's result together
with the graph it executed, which callers may retain for reuse. -/
def compute (g : Graph) (target : TaskId) :
    Except SchedErr (Except Err Value) × Graph :=
  match topoOrder g [target] with
  | Except.error e => (Except.error e, g)
  | Except.ok order =>
    let st := execAllSt g [] order
    (Except.ok (tableGet st.1 target), st.2)

/-- Modelled from the spec: a Lazy Handle pairs a result TaskId with its
owning Graph. -/
structure LazyHandle where
  taskId : TaskId
  graph : Graph

/-- An argument passed to a delayed call: a literal value or an earlier
lazy handle (a dependency). -/
inductive DelayedArg where
  | lit : Value → DelayedArg
  | handle : LazyHandle → DelayedArg

/-- Modelled from the spec: merge two graphs by structural sharing; task
ids minted by `delayed` are unique per graph, so a TaskId collision means
the entry is shared and the first copy is kept. -/
def mergeGraphs (g1 g2 : Graph) : Graph :=
  g1 ++ g2.filter (fun p => (lookupTask g1 p.1).isNone)

/-- The merged graph of all argument dependencies of a delayed call. -/
def mergeArgGraphs (args : List DelayedArg) : Graph :=
  args.foldl
    (fun g a =>
      match a with
      | DelayedArg.lit _ => g
      | DelayedArg.handle h => mergeGraphs g h.graph) []

/-- Modelled from the spec: mint a fresh deterministic TaskId for the next
node of a graph. -/
def freshId (g : Graph) : TaskId :=
  "task-" ++ toString g.length

/-- The argument list recorded in the new task specification: a literal is
stored as-is, a handle argument becomes a reference to its TaskId. -/
def delayedArgToArg : DelayedArg → Arg
  | DelayedArg.lit v => Arg.base (BaseArg.lit v)
  | DelayedArg.handle h => Arg.base (BaseArg.ref h.taskId)

/-- Modelled from the spec: `delayed(f)` returns a new callable; calling it
records a pending computation node -- it merges the argument handles'
graphs, mints a fresh TaskId bound to TaskSpec(f, resolved-args), and
returns a new Lazy Handle, without invoking `f`. -/
def delayed (f : Callable) : List DelayedArg → LazyHandle :=
  fun args =>
    let g := mergeArgGraphs args
    let tid := freshId g
    ⟨tid, g ++ [(tid, TaskSpec.task f (args.map delayedArgToArg))]⟩

/-- The shape of a task specification: everything except the stored
callable itself. -/
inductive SpecShape where
  | lit : Value → SpecShape
  | task : List Arg → SpecShape

/-- Forget the callables of a graph, keeping ids, literals and argument
structure. -/
def graphShape (g : Graph) : List (TaskId × SpecShape) :=
  g.map (fun p =>
    (p.1,
      match p.2 with
      | TaskSpec.lit v => SpecShape.lit v
      | TaskSpec.task _ args => SpecShape.task args))

/-! Code embedded from the notebook's own cells. -/

/-- `def inc(x): return x + 1` (notebook cell 3), as a graph callable. -/
def inc : Callable := fun args =>
  match args with
  | [Value.vint x] => Except.ok (Value.vint (x + 1))
  | _ => Except.error "inc: bad arguments"

/-- `def add(x, y): return x + y` (notebook cell 3), as a graph callable. -/
def add : Callable := fun args =>
  match args with
  | [Value.vint x, Value.vint y] => Except.ok (Value.vint (x + y))
  | _ => Except.error "add: bad arguments"

/-- The explicit dask graph of notebook cell 5:
`dsk = {'a': 1, 'b': (inc, 'a'), 'x': 10, 'y': (inc, 'x'), 'z': (add, 'b', 'y')}`. -/
def dsk : Graph :=
  [("a", TaskSpec.lit (Value.vint 1)),
   ("b", TaskSpec.task inc [Arg.base (BaseArg.ref "a")]),
   ("x", TaskSpec.lit (Value.vint 10)),
   ("y", TaskSpec.task inc [Arg.base (BaseArg.ref "x")]),
   ("z", TaskSpec.task add [Arg.base (BaseArg.ref "b"), Arg.base (BaseArg.ref "y")])]

/-- Python `len`, as used by `'na': (len, 'a')` in notebook cell 15. -/
def lenC : Callable := fun args =>
  match args with
  | [Value.vlist l] => Except.ok (Value.vint l.length)
  | _ => Except.error "len: bad arguments"

/-- Values that are integers, summed; otherwise a Python TypeError. -/
def sumInts : List Value → Except Err Int
  | [] => Except.ok 0
  | Value.vint n :: rest =>
    match sumInts rest with
    | Except.ok m => Except.ok (n + m)
    | Except.error e => Except.error e
  | _ => Except.error "sum: bad arguments"

/-- Python `sum`, as used by `'total': (sum, ['na', 'nb', 'nc'])` in
notebook cell 15. -/
def sumC : Callable := fun args =>
  match args with
  | [Value.vlist l] => (sumInts l).map Value.vint
  | _ => Except.error "sum: bad arguments"

/-- `pd.read_csv` is an external black box (spec section 6); it is
parameterized by the file system, a map from file name to number of data
rows, and returns the loaded rows. -/
def read_csv (fileRows : String → Nat) : Callable := fun args =>
  match args with
  | [Value.vstr fn] =>
    Except.ok (Value.vlist (List.replicate (fileRows fn) (Value.vstr "row")))
  | _ => Except.error "read_csv: bad arguments"

/-- The file names of notebook cell 12. -/
def filenames : List String :=
  ["data/accounts.0.csv", "data/accounts.1.csv", "data/accounts.2.csv"]

/-- The explicit dask graph of notebook cell 15 (three csv loads, three
lengths, one sum), parameterized by the file system. -/
def dskCsv (fileRows : String → Nat) : Graph :=
  [("a", TaskSpec.task (read_csv fileRows) [Arg.base (BaseArg.lit (Value.vstr "data/accounts.0.csv"))]),
   ("b", TaskSpec.task (read_csv fileRows) [Arg.base (BaseArg.lit (Value.vstr "data/accounts.1.csv"))]),
   ("c", TaskSpec.task (read_csv fileRows) [Arg.base (BaseArg.lit (Value.vstr "data/accounts.2.csv"))]),
   ("na", TaskSpec.task lenC [Arg.base (BaseArg.ref "a")]),
   ("nb", TaskSpec.task lenC [Arg.base (BaseArg.ref "b")]),
   ("nc", TaskSpec.task lenC [Arg.base (BaseArg.ref "c")]),
   ("total", TaskSpec.task sumC
     [Arg.arr [BaseArg.ref "na", BaseArg.ref "nb", BaseArg.ref "nc"]])]

/-- `is_inside_circle` (notebook cell 21): given a random point of the unit
square, return 1 if it lies in the quarter circle, else 0.  The call to
`random()` is embedded by passing the sampled point explicitly; exact
rationals stand for Python floats. -/
def is_inside_circle (p : ℚ × ℚ) : Nat :=
  if p.1 ^ 2 + p.2 ^ 2 ≤ 1 then 1 else 0

/-- `estimate_pi` (notebook cell 21): `4. * sum(count) / nsamples` over
`nsamples` sampled points.  Python raises ZeroDivisionError when
`nsamples` is 0, embedded as the error case. -/
def estimate_pi (sample : Nat → ℚ × ℚ) (nsamples : Nat) : Except Err ℚ :=
  let count := (List.range nsamples).map (fun i => is_inside_circle (sample i))
  if nsamples = 0 then Except.error "ZeroDivisionError: float division by zero"
  else Except.ok (4 * (count.sum : ℚ) / nsamples)

/-! The reference semantics: eager, non-graph evaluation.  `Evals g t v`
holds exactly when directly substituting dependency results and evaluating
the callables as plain nested function calls produces `v` for task `t`. -/

mutual
/-- Direct nested evaluation of a task. -/
inductive Evals : Graph → TaskId → Value → Prop where
  | lit : ∀ {g : Graph} {t : TaskId} {v : Value},
      lookupTask g t = some (TaskSpec.lit v) → Evals g t v
  | task : ∀ {g : Graph} {t : TaskId} {f : Callable} {args : List Arg}
      {vs : List Value} {v : Value},
      lookupTask g t = some (TaskSpec.task f args) →
      EvalsArgs g args vs → f vs = Except.ok v → Evals g t v

/-- Direct evaluation of one base argument. -/
inductive EvalsBase : Graph → BaseArg → Value → Prop where
  | lit : ∀ {g : Graph} {v : Value}, EvalsBase g (BaseArg.lit v) v
  | ref : ∀ {g : Graph} {t : TaskId} {v : Value},
      Evals g t v → EvalsBase g (BaseArg.ref t) v

/-- Direct evaluation of the elements of a list argument. -/
inductive EvalsBases : Graph → List BaseArg → List Value → Prop where
  | nil : ∀ {g : Graph}, EvalsBases g [] []
  | cons : ∀ {g : Graph} {b : BaseArg} {v : Value} {l : List BaseArg} {vs : List Value},
      EvalsBase g b v → EvalsBases g l vs → EvalsBases g (b :: l) (v :: vs)

/-- Direct evaluation of one positional argument. -/
inductive EvalsArg : Graph → Arg → Value → Prop where
  | base : ∀ {g : Graph} {b : BaseArg} {v : Value},
      EvalsBase g b v → EvalsArg g (Arg.base b) v
  | arr : ∀ {g : Graph} {l : List BaseArg} {vs : List Value},
      EvalsBases g l vs → EvalsArg g (Arg.arr l) (Value.vlist vs)

/-- Direct evaluation of a positional argument list. -/
inductive EvalsArgs : Graph → List Arg → List Value → Prop where
  | nil : ∀ {g : Graph}, EvalsArgs g [] []
  | cons : ∀ {g : Graph} {a : Arg} {v : Value} {l : List Arg} {vs : List Value},
      EvalsArg g a v → EvalsArgs g l vs → EvalsArgs g (a :: l) (v :: vs)
end

/-- `Acyclic g s` states that the task set `s` admits a dispatch order that
respects dependencies -- the standard linearization characterization of an
acyclic dependency subgraph. -/
def Acyclic (g : Graph) (s : List TaskId) : Prop :=
  ∃ order : List TaskId, order.Nodup ∧ (∀ t, t ∈ s → t ∈ order) ∧
    (∀ t, t ∈ order → t ∈ s) ∧ respectsDeps g [] order = true

/-! Association-list lookup helper lemmas. -/

theorem lookup_cons_ne {β : Type} (a k : TaskId) (b : β) (l : List (TaskId × β)) (h : ¬(k = a)) :
    ((k, b) :: l).lookup a = l.lookup a := by
  have hba : (a == k) = false := by
    simp [beq_iff_eq]
    intro hh; exact h hh.symm
  simp [List.lookup, hba]

theorem lookup_eq_none_of_not_mem_keys {β : Type} (l : List (TaskId × β)) (a : TaskId)
    (h : a ∉ l.map Prod.fst) : l.lookup a = none := by
  induction l with
  | nil => rfl
  | cons p rest ih =>
    simp only [List.map_cons, List.mem_cons] at h
    push_neg at h
    rw [show p = (p.1, p.2) from rfl, lookup_cons_ne _ _ _ _ (fun hh => h.1 hh.symm)]
    exact ih h.2

theorem lookup_isSome_of_mem_keys {β : Type} (l : List (TaskId × β)) (a : TaskId)
    (h : a ∈ l.map Prod.fst) : ∃ b, l.lookup a = some b := by
  induction l with
  | nil => simp at h
  | cons p rest ih =>
    by_cases hpa : p.1 = a
    · refine ⟨p.2, ?_⟩
      rw [show p = (p.1, p.2) from rfl, hpa]
      simp [List.lookup]
    · rw [show p = (p.1, p.2) from rfl, lookup_cons_ne _ _ _ _ hpa]
      apply ih
      simp only [List.map_cons, List.mem_cons] at h
      rcases h with h | h
      · exact absurd h.symm hpa
      · exact h

theorem lookup_append_left {β : Type} (l1 l2 : List (TaskId × β)) (a : TaskId) (b : β)
    (h : l1.lookup a = some b) : (l1 ++ l2).lookup a = some b := by
  induction l1 with
  | nil => simp [List.lookup] at h
  | cons p rest ih =>
    by_cases hpa : p.1 = a
    · rw [show p = (p.1, p.2) from rfl, hpa] at h ⊢
      simp [List.lookup] at h ⊢
      exact h
    · rw [show p = (p.1, p.2) from rfl, lookup_cons_ne _ _ _ _ hpa] at h
      rw [List.cons_append, show p = (p.1, p.2) from rfl, lookup_cons_ne _ _ _ _ hpa]
      exact ih h

theorem lookup_append_right {β : Type} (l1 l2 : List (TaskId × β)) (a : TaskId)
    (h : a ∉ l1.map Prod.fst) : (l1 ++ l2).lookup a = l2.lookup a := by
  induction l1 with
  | nil => rfl
  | cons p rest ih =>
    simp only [List.map_cons, List.mem_cons] at h
    push_neg at h
    rw [List.cons_append, show p = (p.1, p.2) from rfl,
      lookup_cons_ne _ _ _ _ (fun hh => h.1 hh.symm)]
    exact ih h.2

/-! Readiness and dispatch-order lemmas. -/

theorem mem_of_contains {l : List TaskId} {a : TaskId} (h : l.contains a = true) : a ∈ l :=
  List.elem_iff.mp h

theorem contains_of_mem {l : List TaskId} {a : TaskId} (h : a ∈ l) : l.contains a = true :=
  List.elem_iff.mpr h

theorem isReady_of_subset (g : Graph) {d1 d2 : List TaskId}
    (h : ∀ x, x ∈ d1 → x ∈ d2) {t : TaskId}
    (ht : isReady g d1 t = true) : isReady g d2 t = true := by
  simp only [isReady, List.all_eq_true] at *
  intro d hd
  exact contains_of_mem (h d (mem_of_contains (ht d hd)))

theorem isReady_congr (g : Graph) {d1 d2 : List TaskId}
    (h : ∀ x, x ∈ d1 ↔ x ∈ d2) (t : TaskId) :
    isReady g d1 t = isReady g d2 t := by
  by_cases h1 : isReady g d1 t = true
  · rw [h1, isReady_of_subset g (fun x => (h x).mp) h1]
  · by_cases h2 : isReady g d2 t = true
    · exact absurd (isReady_of_subset g (fun x => (h x).mpr) h2) h1
    · rw [Bool.eq_false_iff.mpr h1, Bool.eq_false_iff.mpr h2]

theorem deps_mem_of_isReady {g : Graph} {done : List TaskId} {t d : TaskId}
    (h : isReady g done t = true) (hd : d ∈ depsOf g t) : d ∈ done := by
  simp only [isReady, List.all_eq_true] at h
  exact mem_of_contains (h d hd)

theorem respectsDeps_append (g : Graph) (l1 : List TaskId) :
    ∀ (acc l2 : List TaskId),
    respectsDeps g acc (l1 ++ l2) =
      (respectsDeps g acc l1 && respectsDeps g (acc ++ l1) l2) := by
  induction l1 with
  | nil => intro acc l2; simp [respectsDeps]
  | cons t rest ih =>
    intro acc l2
    simp only [List.cons_append, respectsDeps]
    rw [show rest.append l2 = rest ++ l2 from rfl, ih (acc ++ [t]) l2]
    simp [List.append_assoc, Bool.and_assoc]

theorem respectsDeps_of_all_ready (g : Graph) (l : List TaskId) :
    ∀ (acc : List TaskId), (∀ t, t ∈ l → isReady g acc t = true) →
    respectsDeps g acc l = true := by
  induction l with
  | nil => intro acc _; rfl
  | cons t rest ih =>
    intro acc h
    simp only [respectsDeps, Bool.and_eq_true]
    refine ⟨h t (List.mem_cons_self t rest), ?_⟩
    exact ih (acc ++ [t]) (fun u hu =>
      isReady_of_subset g (fun x hx => List.mem_append_left _ hx)
        (h u (List.mem_cons_of_mem t hu)))

theorem respectsDeps_deps_subset (g : Graph) (pre : List TaskId) :
    ∀ (acc post : List TaskId) (t : TaskId),
    respectsDeps g acc (pre ++ t :: post) = true →
    ∀ d, d ∈ depsOf g t → d ∈ acc ∨ d ∈ pre := by
  induction pre with
  | nil =>
    intro acc post t h d hd
    simp only [List.nil_append, respectsDeps, Bool.and_eq_true] at h
    exact Or.inl (deps_mem_of_isReady h.1 hd)
  | cons p rest ih =>
    intro acc post t h d hd
    simp only [List.cons_append, respectsDeps, Bool.and_eq_true] at h
    rcases ih (acc ++ [p]) post t h.2 d hd with hh | hh
    · rcases List.mem_append.mp hh with hh2 | hh2
      · exact Or.inl hh2
      · simp only [List.mem_singleton] at hh2
        exact Or.inr (by simp [hh2])
    · exact Or.inr (List.mem_cons_of_mem p hh)

/-! Reachability lemmas. -/

theorem mem_depsOf_isSome {g : Graph} {t d : TaskId} (h : d ∈ depsOf g t) :
    (lookupTask g d).isSome := by
  unfold depsOf at h
  cases hl : lookupTask g t with
  | none => rw [hl] at h; simp at h
  | some s => rw [hl] at h; exact (List.mem_filter.mp h).2

theorem mem_reachStep {g : Graph} {s : List TaskId} {x : TaskId} :
    x ∈ reachStep g s ↔ x ∈ s ∨ ∃ t ∈ s, x ∈ depsOf g t := by
  simp [reachStep, List.mem_dedup, List.mem_append, List.mem_flatMap]

theorem reach_nodup (g : Graph) (ts : List TaskId) : (reach g ts).Nodup := by
  unfold reach
  cases hn : g.length with
  | zero => exact List.nodup_dedup _
  | succ n =>
    rw [Function.iterate_succ_apply']
    exact List.nodup_dedup _

theorem iterate_reach_subset_keys (g : Graph) :
    ∀ (n : Nat) (s : List TaskId), (∀ t ∈ s, (lookupTask g t).isSome) →
    ∀ t ∈ (reachStep g)^[n] s, (lookupTask g t).isSome := by
  intro n
  induction n with
  | zero => intro s hs; simpa using hs
  | succ n ih =>
    intro s hs t ht
    rw [Function.iterate_succ_apply] at ht
    refine ih (reachStep g s) (fun u hu => ?_) t ht
    rcases mem_reachStep.mp hu with h | ⟨w, _, hw⟩
    · exact hs u h
    · exact mem_depsOf_isSome hw

theorem reach_subset_keys (g : Graph) (ts : List TaskId) :
    ∀ t ∈ reach g ts, (lookupTask g t).isSome := by
  unfold reach
  refine iterate_reach_subset_keys g g.length _ ?_
  intro t ht
  exact (List.mem_filter.mp (List.mem_dedup.mp ht)).2

theorem iterate_reach_mono (g : Graph) :
    ∀ (n : Nat) (s : List TaskId) (t : TaskId), t ∈ s → t ∈ (reachStep g)^[n] s := by
  intro n
  induction n with
  | zero => intro s t ht; simpa using ht
  | succ n ih =>
    intro s t ht
    rw [Function.iterate_succ_apply']
    exact mem_reachStep.mpr (Or.inl (ih s t ht))

theorem mem_reach_target (g : Graph) (ts : List TaskId) (t : TaskId)
    (hin : t ∈ ts) (hsome : (lookupTask g t).isSome) : t ∈ reach g ts := by
  unfold reach
  refine iterate_reach_mono g g.length _ t ?_
  exact List.mem_dedup.mpr (List.mem_filter.mpr ⟨hin, hsome⟩)

/-! Scheduler dispatch-loop lemmas: the produced order covers exactly the
reachable tasks, has no duplicates and respects dependencies; and the loop
always completes on an acyclic reachable subgraph. -/

theorem roundsAux_nil (g : Graph) (ordl : Nat → List TaskId → List TaskId)
    (fuel i : Nat) (done : List TaskId) :
    roundsAux g ordl fuel i done [] = Except.ok done := by
  cases fuel <;> rfl

theorem roundsAux_cons (g : Graph) (ordl : Nat → List TaskId → List TaskId)
    (fuel i : Nat) (done : List TaskId) (t : TaskId) (rest : List TaskId) :
    roundsAux g ordl (fuel + 1) i done (t :: rest) =
      (if ((t :: rest).filter (isReady g done)).isEmpty then
        Except.error (SchedErr.cyclic t)
      else roundsAux g ordl fuel (i + 1)
        (done ++ ordl i ((t :: rest).filter (isReady g done)))
        ((t :: rest).filter (fun u => !(isReady g done u)))) := by
  rfl

theorem roundsAux_ok_props (g : Graph) (ordl : Nat → List TaskId → List TaskId)
    (hord : ∀ i l, (ordl i l).Perm l) :
    ∀ (fuel i : Nat) (done pending order : List TaskId),
    roundsAux g ordl fuel i done pending = Except.ok order →
    done.Nodup → pending.Nodup → (∀ t, t ∈ done → t ∉ pending) →
    respectsDeps g [] done = true →
    (∀ t, t ∈ order ↔ (t ∈ done ∨ t ∈ pending)) ∧ order.Nodup ∧
      respectsDeps g [] order = true := by
  intro fuel
  induction fuel with
  | zero =>
    intro i done pending order h hd hp hdisj hresp
    cases pending with
    | nil =>
      rw [roundsAux_nil] at h
      cases h
      exact ⟨fun t => by simp, hd, hresp⟩
    | cons t rest => simp [roundsAux] at h
  | succ fuel ih =>
    intro i done pending order h hd hp hdisj hresp
    cases pending with
    | nil =>
      rw [roundsAux_nil] at h
      cases h
      exact ⟨fun t => by simp, hd, hresp⟩
    | cons t rest =>
      rw [roundsAux_cons] at h
      by_cases hempty : ((t :: rest).filter (isReady g done)).isEmpty
      · rw [if_pos hempty] at h; cases h
      · rw [if_neg hempty] at h
        set rdy := (t :: rest).filter (isReady g done) with hrdy
        set pend := (t :: rest).filter (fun u => !(isReady g done u)) with hpend
        have hrdy_ready : ∀ u, u ∈ rdy → isReady g done u = true := by
          intro u hu; exact (List.mem_filter.mp hu).2
        have hrdy_sub : ∀ u, u ∈ rdy → u ∈ t :: rest := by
          intro u hu; exact (List.mem_filter.mp hu).1
        have hmem_ord : ∀ u, u ∈ ordl i rdy ↔ u ∈ rdy := fun u => (hord i rdy).mem_iff
        have hd' : (done ++ ordl i rdy).Nodup := by
          refine List.Nodup.append hd ((hord i rdy).symm.nodup (hp.filter _)) ?_
          intro a ha hb
          exact hdisj a ha (hrdy_sub a ((hmem_ord a).mp hb))
        have hp' : pend.Nodup := hp.filter _
        have hdisj' : ∀ u, u ∈ done ++ ordl i rdy → u ∉ pend := by
          intro u hu hup
          rcases List.mem_append.mp hu with h1 | h1
          · exact hdisj u h1 ((List.mem_filter.mp hup).1)
          · have : isReady g done u = true := hrdy_ready u ((hmem_ord u).mp h1)
            have h2 := (List.mem_filter.mp hup).2
            rw [this] at h2
            simp at h2
        have hresp' : respectsDeps g [] (done ++ ordl i rdy) = true := by
          rw [respectsDeps_append]
          rw [Bool.and_eq_true]
          refine ⟨hresp, respectsDeps_of_all_ready g _ _ ?_⟩
          intro u hu
          refine isReady_of_subset g (fun x hx => ?_) (hrdy_ready u ((hmem_ord u).mp hu))
          simpa using hx
        obtain ⟨hmem, hnd, hrr⟩ := ih (i + 1) _ _ order h hd' hp' hdisj' hresp'
        refine ⟨?_, hnd, hrr⟩
        intro u
        rw [hmem u]
        constructor
        · rintro (hu | hu)
          · rcases List.mem_append.mp hu with h1 | h1
            · exact Or.inl h1
            · exact Or.inr (hrdy_sub u ((hmem_ord u).mp h1))
          · exact Or.inr ((List.mem_filter.mp hu).1)
        · rintro (hu | hu)
          · exact Or.inl (List.mem_append_left _ hu)
          · by_cases hr : isReady g done u = true
            · exact Or.inl (List.mem_append_right _
                ((hmem_ord u).mpr (List.mem_filter.mpr ⟨hu, hr⟩)))
            · refine Or.inr (List.mem_filter.mpr ⟨hu, ?_⟩)
              simp [hr]

theorem exists_ready (g : Graph) (wo : List TaskId) :
    ∀ (acc done pending : List TaskId),
    respectsDeps g acc wo = true →
    (∀ x, x ∈ acc → x ∈ done) →
    (∀ x, x ∈ pending → x ∈ wo) →
    pending ≠ [] →
    (∀ x, x ∈ wo → x ∈ done ∨ x ∈ pending) →
    ∃ x, x ∈ pending ∧ isReady g done x = true := by
  induction wo with
  | nil =>
    intro acc done pending _ _ hpw hne _
    cases hpl : pending with
    | nil => exact absurd hpl hne
    | cons p ps =>
      subst hpl
      exact absurd (hpw p (by simp)) (by simp)
  | cons w rest ih =>
    intro acc done pending hresp hacc hpw hne hpart
    simp only [respectsDeps, Bool.and_eq_true] at hresp
    by_cases hwp : w ∈ pending
    · exact ⟨w, hwp, isReady_of_subset g hacc hresp.1⟩
    · refine ih (acc ++ [w]) done pending hresp.2 ?_ ?_ hne
        (fun x hx => hpart x (List.mem_cons_of_mem w hx))
      · intro x hx
        rcases List.mem_append.mp hx with h1 | h1
        · exact hacc x h1
        · simp only [List.mem_singleton] at h1
          subst h1
          rcases hpart x (List.mem_cons_self x rest) with h2 | h2
          · exact h2
          · exact absurd h2 hwp
      · intro x hx
        rcases List.mem_cons.mp (hpw x hx) with h1 | h1
        · exact absurd (h1 ▸ hx) hwp
        · exact h1

theorem roundsAux_complete (g : Graph) (ordl : Nat → List TaskId → List TaskId)
    (hord : ∀ i l, (ordl i l).Perm l)
    (wo : List TaskId) (hwo : respectsDeps g [] wo = true) :
    ∀ (fuel i : Nat) (done pending : List TaskId),
    pending.length ≤ fuel →
    (∀ x, x ∈ pending → x ∈ wo) →
    (∀ x, x ∈ wo → x ∈ done ∨ x ∈ pending) →
    ∃ order, roundsAux g ordl fuel i done pending = Except.ok order := by
  intro fuel
  induction fuel with
  | zero =>
    intro i done pending hlen hpw hpart
    cases pending with
    | nil => exact ⟨done, roundsAux_nil g ordl 0 i done⟩
    | cons t rest => simp at hlen
  | succ fuel ih =>
    intro i done pending hlen hpw hpart
    cases pending with
    | nil => exact ⟨done, roundsAux_nil g ordl _ i done⟩
    | cons t rest =>
      obtain ⟨x, hxp, hxr⟩ :=
        exists_ready g wo [] done (t :: rest) hwo (by simp) hpw (by simp) hpart
      have hne : ((t :: rest).filter (isReady g done)).isEmpty = false := by
        have : x ∈ (t :: rest).filter (isReady g done) :=
          List.mem_filter.mpr ⟨hxp, hxr⟩
        cases hfe : (t :: rest).filter (isReady g done) with
        | nil => rw [hfe] at this; simp at this
        | cons a b => rfl
      rw [roundsAux_cons, hne]
      simp only [Bool.false_eq_true, if_false]
      refine ih (i + 1) _ _ ?_ ?_ ?_
      · have hlt : ((t :: rest).filter (fun u => !(isReady g done u))).length
            < (t :: rest).length := by
          refine List.length_filter_lt_length_iff_exists.mpr ⟨x, hxp, ?_⟩
          simp [hxr]
        omega
      · intro u hu
        exact hpw u ((List.mem_filter.mp hu).1)
      · intro u hu
        rcases hpart u hu with h1 | h1
        · exact Or.inl (List.mem_append_left _ h1)
        · by_cases hr : isReady g done u = true
          · refine Or.inl (List.mem_append_right _ ?_)
            exact ((hord i _).mem_iff).mpr (List.mem_filter.mpr ⟨h1, hr⟩)
          · refine Or.inr (List.mem_filter.mpr ⟨h1, ?_⟩)
            simp [hr]

/-! Execution-table lemmas: each dispatched task's entry is the result of
executing it against the final table (its dependencies' entries were
produced earlier and never change). -/

theorem topoOrderWith_props (g : Graph) (ordl : Nat → List TaskId → List TaskId)
    (hord : ∀ i l, (ordl i l).Perm l) (targets order : List TaskId)
    (h : topoOrderWith g ordl targets = Except.ok order) :
    (∀ t, t ∈ order ↔ t ∈ reach g targets) ∧ order.Nodup ∧
      respectsDeps g [] order = true := by
  unfold topoOrderWith at h
  obtain ⟨hmem, hnd, hresp⟩ := roundsAux_ok_props g ordl hord _ 0 [] (reach g targets)
    order h List.nodup_nil (reach_nodup g targets) (by simp) rfl
  exact ⟨fun t => by simpa using hmem t, hnd, hresp⟩

theorem topoOrderWith_complete (g : Graph) (ordl : Nat → List TaskId → List TaskId)
    (hord : ∀ i l, (ordl i l).Perm l) (targets : List TaskId)
    (hacyc : Acyclic g (reach g targets)) :
    ∃ order, topoOrderWith g ordl targets = Except.ok order := by
  obtain ⟨wo, _, hsw, hws, hresp⟩ := hacyc
  exact roundsAux_complete g ordl hord wo hresp _ 0 [] (reach g targets) le_rfl hsw
    (fun x hx => Or.inr (hws x hx))

/-- The references of a task's specification (before filtering for
existence). -/
def refsOf (g : Graph) (t : TaskId) : List TaskId :=
  match lookupTask g t with
  | none => []
  | some s => specRefs s

theorem depsOf_eq (g : Graph) (t : TaskId) :
    depsOf g t = (refsOf g t).filter (fun d => (lookupTask g d).isSome) := by
  unfold depsOf refsOf
  cases lookupTask g t <;> rfl

theorem execAllAux_append (g : Graph) (l1 : List TaskId) :
    ∀ (tbl : Table) (l2 : List TaskId),
    execAllAux g tbl (l1 ++ l2) = execAllAux g (execAllAux g tbl l1) l2 := by
  induction l1 with
  | nil => intro tbl l2; rfl
  | cons t rest ih =>
    intro tbl l2
    simp only [List.cons_append, execAllAux]
    exact ih _ _

theorem execAllAux_keys (g : Graph) (order : List TaskId) :
    ∀ (tbl : Table), (execAllAux g tbl order).map Prod.fst = tbl.map Prod.fst ++ order := by
  induction order with
  | nil => intro tbl; simp [execAllAux]
  | cons t rest ih =>
    intro tbl
    simp only [execAllAux]
    rw [ih]
    simp

theorem execAllAux_lookup_stable (g : Graph) (order : List TaskId) :
    ∀ (tbl : Table) (a : TaskId) (r : Except Err Value),
    tbl.lookup a = some r → (execAllAux g tbl order).lookup a = some r := by
  induction order with
  | nil => intro tbl a r h; exact h
  | cons t rest ih =>
    intro tbl a r h
    simp only [execAllAux]
    exact ih _ a r (lookup_append_left _ _ _ _ h)

theorem execAll_lookup_none (g : Graph) (order : List TaskId) (a : TaskId)
    (h : a ∉ order) : (execAll g order).lookup a = none := by
  apply lookup_eq_none_of_not_mem_keys
  rw [execAll, execAllAux_keys]
  simpa using h

theorem execAll_lookup_fix (g : Graph) (order pre post : List TaskId) (t : TaskId)
    (horder : order = pre ++ t :: post) (hnd : order.Nodup) :
    (execAll g order).lookup t = some (execTask g (execAllAux g [] pre) t) := by
  have htpre : t ∉ pre := by
    rw [horder] at hnd
    rcases List.nodup_append.mp hnd with ⟨_, _, hdis⟩
    intro hc
    exact hdis hc (List.mem_cons_self t post)
  rw [horder, execAll, execAllAux_append]
  show (execAllAux g (execAllAux g [] pre) (t :: post)).lookup t = _
  rw [show execAllAux g (execAllAux g [] pre) (t :: post) =
    execAllAux g ((execAllAux g [] pre) ++
      [(t, execTask g (execAllAux g [] pre) t)]) post from rfl]
  apply execAllAux_lookup_stable
  rw [lookup_append_right]
  · simp [List.lookup]
  · rw [execAllAux_keys]
    simpa using htpre

theorem resolveBase_congr {tbl1 tbl2 : Table} (b : BaseArg)
    (h : ∀ d, d ∈ baseRefs b → tbl1.lookup d = tbl2.lookup d) :
    resolveBase tbl1 b = resolveBase tbl2 b := by
  cases b with
  | lit v => rfl
  | ref t =>
    simp only [resolveBase]
    rw [h t (by simp [baseRefs])]

theorem resolveBases_congr {tbl1 tbl2 : Table} (l : List BaseArg)
    (h : ∀ d, d ∈ l.flatMap baseRefs → tbl1.lookup d = tbl2.lookup d) :
    resolveBases tbl1 l = resolveBases tbl2 l := by
  induction l with
  | nil => rfl
  | cons b rest ih =>
    simp only [resolveBases]
    rw [resolveBase_congr b (fun d hd => h d (by simp [hd])),
      ih (fun d hd => h d (by simp only [List.flatMap_cons, List.mem_append]; exact Or.inr hd))]

theorem resolveArg_congr {tbl1 tbl2 : Table} (a : Arg)
    (h : ∀ d, d ∈ argRefs a → tbl1.lookup d = tbl2.lookup d) :
    resolveArg tbl1 a = resolveArg tbl2 a := by
  cases a with
  | base b => exact resolveBase_congr b h
  | arr l =>
    simp only [resolveArg]
    rw [resolveBases_congr l h]

theorem resolveArgs_congr {tbl1 tbl2 : Table} (args : List Arg)
    (h : ∀ d, d ∈ args.flatMap argRefs → tbl1.lookup d = tbl2.lookup d) :
    resolveArgs tbl1 args = resolveArgs tbl2 args := by
  induction args with
  | nil => rfl
  | cons a rest ih =>
    simp only [resolveArgs]
    rw [resolveArg_congr a (fun d hd => h d (by simp [hd])),
      ih (fun d hd => h d (by simp only [List.flatMap_cons, List.mem_append]; exact Or.inr hd))]

theorem execTask_congr (g : Graph) {tbl1 tbl2 : Table} (t : TaskId)
    (h : ∀ d, d ∈ refsOf g t → tbl1.lookup d = tbl2.lookup d) :
    execTask g tbl1 t = execTask g tbl2 t := by
  cases hspec : lookupTask g t with
  | none => simp only [execTask, hspec]
  | some s =>
    cases s with
    | lit v => simp only [execTask, hspec]
    | task f args =>
      have h2 : ∀ d, d ∈ args.flatMap argRefs → tbl1.lookup d = tbl2.lookup d := by
        intro d hd
        apply h
        unfold refsOf
        rw [hspec]
        exact hd
      simp only [execTask, hspec]
      rw [resolveArgs_congr args h2]

theorem execAll_lookup_self (g : Graph) (order pre post : List TaskId) (t : TaskId)
    (horder : order = pre ++ t :: post) (hnd : order.Nodup)
    (hresp : respectsDeps g [] order = true)
    (hkeys : ∀ u, u ∈ order → (lookupTask g u).isSome) :
    (execAll g order).lookup t = some (execTask g (execAll g order) t) := by
  rw [execAll_lookup_fix g order pre post t horder hnd]
  congr 1
  apply execTask_congr
  intro d hd
  by_cases hdk : (lookupTask g d).isSome
  · have hdd : d ∈ depsOf g t := by
      rw [depsOf_eq]
      exact List.mem_filter.mpr ⟨hd, by simpa using hdk⟩
    have hdpre : d ∈ pre := by
      rcases respectsDeps_deps_subset g pre [] post t (by rw [← horder]; exact hresp)
        d hdd with hh | hh
      · simp at hh
      · exact hh
    obtain ⟨r, hr⟩ := lookup_isSome_of_mem_keys (execAllAux g [] pre) d
      (by rw [execAllAux_keys]; simpa using hdpre)
    rw [hr, horder, execAll, execAllAux_append]
    exact (execAllAux_lookup_stable g _ _ d r hr).symm
  · have hdo : d ∉ order := fun hmem => hdk (hkeys d hmem)
    have h1 : (execAllAux g [] pre).lookup d = none := by
      apply lookup_eq_none_of_not_mem_keys
      rw [execAllAux_keys]
      intro hmm
      exact hdo (horder ▸ List.mem_append_left _ (by simpa using hmm))
    rw [h1, execAll_lookup_none g order d hdo]

/-! Soundness and completeness of graph execution against the direct
nested evaluation relation, and independence of the result table from the
dispatch order. -/

theorem evals_isSome {g : Graph} {t : TaskId} {v : Value} (h : Evals g t v) :
    (lookupTask g t).isSome := by
  cases h with
  | lit hl => rw [hl]; rfl
  | task hl _ _ => rw [hl]; rfl

theorem resolveBase_sound {g : Graph} {tbl : Table} (b : BaseArg) (v : Value)
    (IH : ∀ d vd, d ∈ baseRefs b → tbl.lookup d = some (Except.ok vd) → Evals g d vd)
    (h : resolveBase tbl b = Except.ok v) : EvalsBase g b v := by
  cases b with
  | lit w =>
    simp only [resolveBase] at h
    injection h with h
    subst h
    exact EvalsBase.lit
  | ref d =>
    simp only [resolveBase] at h
    cases hl : tbl.lookup d with
    | none => rw [hl] at h; cases h
    | some r =>
      rw [hl] at h
      subst h
      exact EvalsBase.ref (IH d v (by simp [baseRefs]) hl)

theorem resolveBases_sound {g : Graph} {tbl : Table} (l : List BaseArg) :
    ∀ (vs : List Value),
    (∀ d vd, d ∈ l.flatMap baseRefs → tbl.lookup d = some (Except.ok vd) → Evals g d vd) →
    resolveBases tbl l = Except.ok vs → EvalsBases g l vs := by
  induction l with
  | nil =>
    intro vs _ h
    injection h with h
    subst h
    exact EvalsBases.nil
  | cons b rest ih =>
    intro vs IH h
    simp only [resolveBases] at h
    cases hb : resolveBase tbl b with
    | error e => rw [hb] at h; cases h
    | ok v =>
      rw [hb] at h
      cases hrest : resolveBases tbl rest with
      | error e => rw [hrest] at h; cases h
      | ok ws =>
        rw [hrest] at h
        injection h with h
        subst h
        refine EvalsBases.cons
          (resolveBase_sound b v (fun d vd hd => IH d vd (by simp [hd])) hb)
          (ih ws (fun d vd hd => IH d vd
            (by simp only [List.flatMap_cons, List.mem_append]; exact Or.inr hd)) hrest)

theorem resolveArg_sound {g : Graph} {tbl : Table} (a : Arg) (v : Value)
    (IH : ∀ d vd, d ∈ argRefs a → tbl.lookup d = some (Except.ok vd) → Evals g d vd)
    (h : resolveArg tbl a = Except.ok v) : EvalsArg g a v := by
  cases a with
  | base b => exact EvalsArg.base (resolveBase_sound b v IH h)
  | arr l =>
    simp only [resolveArg] at h
    cases hl : resolveBases tbl l with
    | error e => rw [hl] at h; cases h
    | ok ws =>
      rw [hl] at h
      injection h with h
      subst h
      exact EvalsArg.arr (resolveBases_sound l ws IH hl)

theorem resolveArgs_sound {g : Graph} {tbl : Table} (args : List Arg) :
    ∀ (vs : List Value),
    (∀ d vd, d ∈ args.flatMap argRefs → tbl.lookup d = some (Except.ok vd) → Evals g d vd) →
    resolveArgs tbl args = Except.ok vs → EvalsArgs g args vs := by
  induction args with
  | nil =>
    intro vs _ h
    injection h with h
    subst h
    exact EvalsArgs.nil
  | cons a rest ih =>
    intro vs IH h
    simp only [resolveArgs] at h
    cases ha : resolveArg tbl a with
    | error e => rw [ha] at h; cases h
    | ok v =>
      rw [ha] at h
      cases hrest : resolveArgs tbl rest with
      | error e => rw [hrest] at h; cases h
      | ok ws =>
        rw [hrest] at h
        injection h with h
        subst h
        refine EvalsArgs.cons
          (resolveArg_sound a v (fun d vd hd => IH d vd (by simp [hd])) ha)
          (ih ws (fun d vd hd => IH d vd
            (by simp only [List.flatMap_cons, List.mem_append]; exact Or.inr hd)) hrest)

theorem execAll_sound (g : Graph) (order : List TaskId)
    (hnd : order.Nodup) (hresp : respectsDeps g [] order = true)
    (hkeys : ∀ u, u ∈ order → (lookupTask g u).isSome) :
    ∀ (t : TaskId) (v : Value),
    (execAll g order).lookup t = some (Except.ok v) → Evals g t v := by
  suffices H : ∀ (n : Nat) (pre : List TaskId), pre.length ≤ n →
      ∀ (t : TaskId) (post : List TaskId), order = pre ++ t :: post →
      ∀ v, (execAll g order).lookup t = some (Except.ok v) → Evals g t v by
    intro t v hl
    have ht : t ∈ order := by
      by_contra hc
      rw [execAll_lookup_none g order t hc] at hl
      cases hl
    obtain ⟨pre, post, hsplit⟩ := List.append_of_mem ht
    exact H pre.length pre le_rfl t post hsplit v hl
  intro n
  induction n using Nat.strong_induction_on with
  | _ n IHn =>
    intro pre hpre t post horder v hl
    rw [execAll_lookup_self g order pre post t horder hnd hresp hkeys] at hl
    injection hl with hl
    have IHdep : ∀ d vd, d ∈ refsOf g t →
        (execAll g order).lookup d = some (Except.ok vd) → Evals g d vd := by
      intro d vd hdref hdl
      have hdo : d ∈ order := by
        by_contra hc
        rw [execAll_lookup_none g order d hc] at hdl
        cases hdl
      have hdd : d ∈ depsOf g t := by
        rw [depsOf_eq]
        exact List.mem_filter.mpr ⟨hdref, by simpa using hkeys d hdo⟩
      have hdpre : d ∈ pre := by
        rcases respectsDeps_deps_subset g pre [] post t
          (by rw [← horder]; exact hresp) d hdd with hh | hh
        · simp at hh
        · exact hh
      obtain ⟨p1, p2, hp⟩ := List.append_of_mem hdpre
      have horder2 : order = p1 ++ d :: (p2 ++ t :: post) := by
        rw [horder, hp]
        simp
      have hlt : p1.length < n := by
        have h2 : p1.length < pre.length := by
          rw [hp]
          simp [List.length_append]
        omega
      exact IHn p1.length hlt p1 le_rfl d (p2 ++ t :: post) horder2 vd hdl
    cases hspec : lookupTask g t with
    | none =>
      simp only [execTask, hspec] at hl
      cases hl
    | some s =>
      cases s with
      | lit w =>
        simp only [execTask, hspec] at hl
        injection hl with hl
        exact hl ▸ Evals.lit hspec
      | task f args =>
        simp only [execTask, hspec] at hl
        cases hres : resolveArgs (execAll g order) args with
        | error e => rw [hres] at hl; cases hl
        | ok vs =>
          rw [hres] at hl
          refine Evals.task hspec ?_ hl
          refine resolveArgs_sound args vs ?_ hres
          intro d vd hd hdl
          refine IHdep d vd ?_ hdl
          unfold refsOf
          rw [hspec]
          exact hd

theorem resolveBase_complete {g : Graph} {tbl : Table} {b : BaseArg} {v : Value}
    (IH : ∀ d vd, d ∈ baseRefs b → Evals g d vd → tbl.lookup d = some (Except.ok vd))
    (h : EvalsBase g b v) : resolveBase tbl b = Except.ok v := by
  cases h with
  | lit => rfl
  | ref hev =>
    simp only [resolveBase]
    rw [IH _ v (by simp [baseRefs]) hev]

theorem resolveBases_complete {g : Graph} {tbl : Table} {l : List BaseArg} :
    ∀ {vs : List Value},
    (∀ d vd, d ∈ l.flatMap baseRefs → Evals g d vd → tbl.lookup d = some (Except.ok vd)) →
    EvalsBases g l vs → resolveBases tbl l = Except.ok vs := by
  induction l with
  | nil =>
    intro vs _ h
    cases h
    rfl
  | cons b rest ih =>
    intro vs IH h
    cases h with
    | cons hb hrest =>
      simp only [resolveBases]
      rw [resolveBase_complete (fun d vd hd => IH d vd (by simp [hd])) hb,
        ih (fun d vd hd => IH d vd
          (by simp only [List.flatMap_cons, List.mem_append]; exact Or.inr hd)) hrest]

theorem resolveArg_complete {g : Graph} {tbl : Table} {a : Arg} {v : Value}
    (IH : ∀ d vd, d ∈ argRefs a → Evals g d vd → tbl.lookup d = some (Except.ok vd))
    (h : EvalsArg g a v) : resolveArg tbl a = Except.ok v := by
  cases h with
  | base hb => exact resolveBase_complete IH hb
  | arr hl =>
    simp only [resolveArg]
    rw [resolveBases_complete IH hl]
    rfl

theorem resolveArgs_complete {g : Graph} {tbl : Table} {args : List Arg} :
    ∀ {vs : List Value},
    (∀ d vd, d ∈ args.flatMap argRefs → Evals g d vd → tbl.lookup d = some (Except.ok vd)) →
    EvalsArgs g args vs → resolveArgs tbl args = Except.ok vs := by
  induction args with
  | nil =>
    intro vs _ h
    cases h
    rfl
  | cons a rest ih =>
    intro vs IH h
    cases h with
    | cons ha hrest =>
      simp only [resolveArgs]
      rw [resolveArg_complete (fun d vd hd => IH d vd (by simp [hd])) ha,
        ih (fun d vd hd => IH d vd
          (by simp only [List.flatMap_cons, List.mem_append]; exact Or.inr hd)) hrest]

theorem execAll_complete (g : Graph) (order : List TaskId)
    (hnd : order.Nodup) (hresp : respectsDeps g [] order = true)
    (hkeys : ∀ u, u ∈ order → (lookupTask g u).isSome) :
    ∀ (t : TaskId) (v : Value), Evals g t v → t ∈ order →
    (execAll g order).lookup t = some (Except.ok v) := by
  suffices H : ∀ (n : Nat) (pre : List TaskId), pre.length ≤ n →
      ∀ (t : TaskId) (post : List TaskId), order = pre ++ t :: post →
      ∀ v, Evals g t v → (execAll g order).lookup t = some (Except.ok v) by
    intro t v hev ht
    obtain ⟨pre, post, hsplit⟩ := List.append_of_mem ht
    exact H pre.length pre le_rfl t post hsplit v hev
  intro n
  induction n using Nat.strong_induction_on with
  | _ n IHn =>
    intro pre hpre t post horder v hev
    rw [execAll_lookup_self g order pre post t horder hnd hresp hkeys]
    congr 1
    have IHdep : ∀ d vd, d ∈ refsOf g t → Evals g d vd →
        (execAll g order).lookup d = some (Except.ok vd) := by
      intro d vd hdref hdev
      have hdd : d ∈ depsOf g t := by
        rw [depsOf_eq]
        exact List.mem_filter.mpr ⟨hdref, by simpa using evals_isSome hdev⟩
      have hdpre : d ∈ pre := by
        rcases respectsDeps_deps_subset g pre [] post t
          (by rw [← horder]; exact hresp) d hdd with hh | hh
        · simp at hh
        · exact hh
      obtain ⟨p1, p2, hp⟩ := List.append_of_mem hdpre
      have horder2 : order = p1 ++ d :: (p2 ++ t :: post) := by
        rw [horder, hp]
        simp
      have hlt : p1.length < n := by
        have h2 : p1.length < pre.length := by
          rw [hp]
          simp [List.length_append]
        omega
      exact IHn p1.length hlt p1 le_rfl d (p2 ++ t :: post) horder2 vd hdev
    cases hev with
    | lit hspec => simp only [execTask, hspec]
    | task hspec hargs hf =>
      simp only [execTask, hspec]
      rw [resolveArgs_complete
        (fun d vd hd hdev => IHdep d vd (by unfold refsOf; rw [hspec]; exact hd) hdev)
        hargs]
      exact hf

theorem execAll_agree (g : Graph) (o1 o2 : List TaskId)
    (hnd1 : o1.Nodup) (hresp1 : respectsDeps g [] o1 = true)
    (hkeys1 : ∀ u, u ∈ o1 → (lookupTask g u).isSome)
    (hnd2 : o2.Nodup) (hresp2 : respectsDeps g [] o2 = true)
    (hkeys2 : ∀ u, u ∈ o2 → (lookupTask g u).isSome)
    (hmem : ∀ u, u ∈ o1 ↔ u ∈ o2) :
    ∀ t, (execAll g o1).lookup t = (execAll g o2).lookup t := by
  suffices H : ∀ (n : Nat) (pre : List TaskId), pre.length ≤ n →
      ∀ (t : TaskId) (post : List TaskId), o1 = pre ++ t :: post →
      (execAll g o1).lookup t = (execAll g o2).lookup t by
    intro t
    by_cases ht : t ∈ o1
    · obtain ⟨pre, post, hsplit⟩ := List.append_of_mem ht
      exact H pre.length pre le_rfl t post hsplit
    · rw [execAll_lookup_none g o1 t ht,
        execAll_lookup_none g o2 t (fun hc => ht ((hmem t).mpr hc))]
  intro n
  induction n using Nat.strong_induction_on with
  | _ n IHn =>
    intro pre hpre t post horder
    have ht2 : t ∈ o2 := (hmem t).mp (horder ▸ List.mem_append_right _ (List.mem_cons_self t post))
    obtain ⟨pre2, post2, hsplit2⟩ := List.append_of_mem ht2
    rw [execAll_lookup_self g o1 pre post t horder hnd1 hresp1 hkeys1,
      execAll_lookup_self g o2 pre2 post2 t hsplit2 hnd2 hresp2 hkeys2]
    congr 1
    apply execTask_congr
    intro d hdref
    by_cases hdk : (lookupTask g d).isSome
    · have hdd : d ∈ depsOf g t := by
        rw [depsOf_eq]
        exact List.mem_filter.mpr ⟨hdref, by simpa using hdk⟩
      have hdpre : d ∈ pre := by
        rcases respectsDeps_deps_subset g pre [] post t
          (by rw [← horder]; exact hresp1) d hdd with hh | hh
        · simp at hh
        · exact hh
      obtain ⟨p1, p2, hp⟩ := List.append_of_mem hdpre
      have horder2 : o1 = p1 ++ d :: (p2 ++ t :: post) := by
        rw [horder, hp]
        simp
      have hlt : p1.length < n := by
        have h2 : p1.length < pre.length := by
          rw [hp]
          simp [List.length_append]
        omega
      exact IHn p1.length hlt p1 le_rfl d (p2 ++ t :: post) horder2
    · have hd1 : d ∉ o1 := fun hc => hdk (hkeys1 d hc)
      have hd2 : d ∉ o2 := fun hc => hdk (hkeys2 d hc)
      rw [execAll_lookup_none g o1 d hd1, execAll_lookup_none g o2 d hd2]

/-! Top-level run lemmas: the scheduler completes on acyclic reachable
subgraphs and returns exactly the directly evaluated value, independently
of the backend's completion order. -/

theorem oracleFor_perm (bk : BackendKind) (oracle : Nat → List TaskId → List TaskId)
    (h : ∀ i l, (oracle i l).Perm l) :
    ∀ i l, (oracleFor bk oracle i l).Perm l := by
  cases bk with
  | serial => intro i l; exact List.Perm.refl l
  | threadPool n => exact h
  | processPool n => exact h

theorem runWith_eval_iff (bk : BackendKind) (oracle : Nat → List TaskId → List TaskId)
    (hperm : ∀ i l, (oracle i l).Perm l) (g : Graph) (target : TaskId)
    (hacyc : Acyclic g (reach g [target])) :
    (∃ r, runWith bk oracle g target = Except.ok r) ∧
    (∀ v, runWith bk oracle g target = Except.ok (Except.ok v) ↔ Evals g target v) := by
  have hordl := oracleFor_perm bk oracle hperm
  obtain ⟨order, hord⟩ := topoOrderWith_complete g (oracleFor bk oracle) hordl [target] hacyc
  obtain ⟨hmem, hnd, hresp⟩ := topoOrderWith_props g (oracleFor bk oracle) hordl [target] order hord
  have hkeys : ∀ u, u ∈ order → (lookupTask g u).isSome := by
    intro u hu
    exact reach_subset_keys g [target] u ((hmem u).mp hu)
  have hrw : runWith bk oracle g target =
      Except.ok (tableGet (execAll g order) target) := by
    unfold runWith
    rw [hord]
  refine ⟨⟨_, hrw⟩, ?_⟩
  intro v
  rw [hrw]
  constructor
  · intro h
    injection h with h
    unfold tableGet at h
    cases hl : (execAll g order).lookup target with
    | none => rw [hl] at h; cases h
    | some r =>
      rw [hl] at h
      subst h
      exact execAll_sound g order hnd hresp hkeys target v hl
  · intro hev
    have htin : target ∈ order := by
      rw [hmem]
      exact mem_reach_target g [target] target (by simp) (evals_isSome hev)
    have := execAll_complete g order hnd hresp hkeys target v hev htin
    unfold tableGet
    rw [this]

theorem roundsAux_compare (g : Graph) (ordA ordB : Nat → List TaskId → List TaskId)
    (hA : ∀ i l, (ordA i l).Perm l) (hB : ∀ i l, (ordB i l).Perm l) :
    ∀ (fuel i : Nat) (done1 done2 pending : List TaskId),
    (∀ u, u ∈ done1 ↔ u ∈ done2) →
    (∃ e, roundsAux g ordA fuel i done1 pending = Except.error e ∧
          roundsAux g ordB fuel i done2 pending = Except.error e) ∨
    (∃ or1 or2, roundsAux g ordA fuel i done1 pending = Except.ok or1 ∧
          roundsAux g ordB fuel i done2 pending = Except.ok or2 ∧
          ∀ u, u ∈ or1 ↔ u ∈ or2) := by
  intro fuel
  induction fuel with
  | zero =>
    intro i done1 done2 pending hdone
    cases pending with
    | nil => exact Or.inr ⟨done1, done2, roundsAux_nil g ordA 0 i done1,
        roundsAux_nil g ordB 0 i done2, hdone⟩
    | cons t rest =>
      exact Or.inl ⟨SchedErr.cyclic t, rfl, rfl⟩
  | succ fuel ih =>
    intro i done1 done2 pending hdone
    cases pending with
    | nil => exact Or.inr ⟨done1, done2, roundsAux_nil g ordA _ i done1,
        roundsAux_nil g ordB _ i done2, hdone⟩
    | cons t rest =>
      have hready : ∀ u, isReady g done1 u = isReady g done2 u :=
        fun u => isReady_congr g hdone u
      have hfilter : (t :: rest).filter (isReady g done1) =
          (t :: rest).filter (isReady g done2) :=
        List.filter_congr (fun u _ => hready u)
      have hfilter2 : (t :: rest).filter (fun u => !(isReady g done1 u)) =
          (t :: rest).filter (fun u => !(isReady g done2 u)) :=
        List.filter_congr (fun u _ => by rw [hready u])
      rw [roundsAux_cons, roundsAux_cons, hfilter, hfilter2]
      by_cases hempty : ((t :: rest).filter (isReady g done2)).isEmpty
      · rw [if_pos hempty, if_pos hempty]
        exact Or.inl ⟨SchedErr.cyclic t, rfl, rfl⟩
      · rw [if_neg hempty, if_neg hempty]
        refine ih (i + 1) _ _ _ ?_
        intro u
        simp only [List.mem_append]
        constructor
        · rintro (h | h)
          · exact Or.inl ((hdone u).mp h)
          · exact Or.inr (((hB i _).mem_iff).mpr (((hA i _).mem_iff).mp h))
        · rintro (h | h)
          · exact Or.inl ((hdone u).mpr h)
          · exact Or.inr (((hA i _).mem_iff).mpr (((hB i _).mem_iff).mp h))

theorem runWith_backend_agree (bk1 bk2 : BackendKind)
    (o1 o2 : Nat → List TaskId → List TaskId)
    (h1 : ∀ i l, (o1 i l).Perm l) (h2 : ∀ i l, (o2 i l).Perm l)
    (g : Graph) (target : TaskId) :
    runWith bk1 o1 g target = runWith bk2 o2 g target := by
  have hA := oracleFor_perm bk1 o1 h1
  have hB := oracleFor_perm bk2 o2 h2
  rcases roundsAux_compare g (oracleFor bk1 o1) (oracleFor bk2 o2) hA hB
    (reach g [target]).length 0 [] [] (reach g [target]) (fun u => Iff.rfl) with
    ⟨e, he1, he2⟩ | ⟨or1, or2, ho1, ho2, hmem⟩
  · have ht1 : topoOrderWith g (oracleFor bk1 o1) [target] = Except.error e := he1
    have ht2 : topoOrderWith g (oracleFor bk2 o2) [target] = Except.error e := he2
    unfold runWith
    rw [ht1, ht2]
  · have ht1 : topoOrderWith g (oracleFor bk1 o1) [target] = Except.ok or1 := ho1
    have ht2 : topoOrderWith g (oracleFor bk2 o2) [target] = Except.ok or2 := ho2
    obtain ⟨hm1, hnd1, hr1⟩ := topoOrderWith_props g _ hA [target] or1 ht1
    obtain ⟨hm2, hnd2, hr2⟩ := topoOrderWith_props g _ hB [target] or2 ht2
    have hk1 : ∀ u, u ∈ or1 → (lookupTask g u).isSome :=
      fun u hu => reach_subset_keys g [target] u ((hm1 u).mp hu)
    have hk2 : ∀ u, u ∈ or2 → (lookupTask g u).isSome :=
      fun u hu => reach_subset_keys g [target] u ((hm2 u).mp hu)
    unfold runWith
    rw [ht1, ht2]
    show Except.ok (tableGet (execAll g or1) target) =
      Except.ok (tableGet (execAll g or2) target)
    congr 1
    unfold tableGet
    rw [execAll_agree g or1 or2 hnd1 hr1 hk1 hnd2 hr2 hk2
      (fun u => (hm1 u).trans (hm2 u).symm) target]

/-! The reachable set is closed under dependencies: iterating the
one-step closure as many times as the graph has entries reaches a
fixpoint, by a cardinality argument over the key set. -/

theorem mem_keys_of_lookup_isSome {β : Type} {l : List (TaskId × β)} {a : TaskId}
    (h : (l.lookup a).isSome) : a ∈ l.map Prod.fst := by
  induction l with
  | nil => simp [List.lookup] at h
  | cons p rest ih =>
    by_cases hpa : p.1 = a
    · simp [hpa]
    · rw [show p = (p.1, p.2) from rfl, lookup_cons_ne _ _ _ _ hpa] at h
      simp only [List.map_cons, List.mem_cons]
      exact Or.inr (ih h)

theorem reachStep_congr (g : Graph) {s1 s2 : List TaskId}
    (h : ∀ x, x ∈ s1 ↔ x ∈ s2) :
    ∀ x, x ∈ reachStep g s1 ↔ x ∈ reachStep g s2 := by
  intro x
  rw [mem_reachStep, mem_reachStep]
  constructor
  · rintro (hx | ⟨t, ht, hx⟩)
    · exact Or.inl ((h x).mp hx)
    · exact Or.inr ⟨t, (h t).mp ht, hx⟩
  · rintro (hx | ⟨t, ht, hx⟩)
    · exact Or.inl ((h x).mpr hx)
    · exact Or.inr ⟨t, (h t).mpr ht, hx⟩

theorem reachStep_stable_propagate (g : Graph) (init : List TaskId) (k : Nat)
    (hst : ∀ x, x ∈ (reachStep g)^[k + 1] init ↔ x ∈ (reachStep g)^[k] init) :
    ∀ m, k ≤ m →
    ∀ x, x ∈ (reachStep g)^[m] init ↔ x ∈ (reachStep g)^[k] init := by
  intro m
  induction m with
  | zero =>
    intro hm
    have : k = 0 := Nat.le_zero.mp hm
    subst this
    intro x; rfl
  | succ m ih =>
    intro hm x
    rcases Nat.lt_or_ge k (m + 1) with hlt | hge
    · have hkm : k ≤ m := Nat.lt_succ_iff.mp hlt
      have hmx := ih hkm
      calc x ∈ (reachStep g)^[m + 1] init
          ↔ x ∈ reachStep g ((reachStep g)^[m] init) := by
            rw [Function.iterate_succ_apply']
        _ ↔ x ∈ reachStep g ((reachStep g)^[k] init) :=
            reachStep_congr g hmx x
        _ ↔ x ∈ (reachStep g)^[k + 1] init := by
            rw [Function.iterate_succ_apply']
        _ ↔ x ∈ (reachStep g)^[k] init := hst x
    · have : k = m + 1 := Nat.le_antisymm hm hge
      subst this
      rfl

theorem reachStep_card_growth (g : Graph) (init : List TaskId) :
    ∀ (k : Nat),
    (∀ j, j < k → ¬ (∀ x, x ∈ (reachStep g)^[j + 1] init ↔ x ∈ (reachStep g)^[j] init)) →
    k ≤ ((reachStep g)^[k] init).toFinset.card := by
  intro k
  induction k with
  | zero => intro _; exact Nat.zero_le _
  | succ k ih =>
    intro h
    have hk : k ≤ ((reachStep g)^[k] init).toFinset.card :=
      ih (fun j hj => h j (Nat.lt_succ_of_lt hj))
    have hne := h k (Nat.lt_succ_self k)
    have hsub : ((reachStep g)^[k] init).toFinset ⊆
        ((reachStep g)^[k + 1] init).toFinset := by
      intro x hx
      rw [List.mem_toFinset] at *
      rw [Function.iterate_succ_apply']
      exact mem_reachStep.mpr (Or.inl hx)
    have hssub : ((reachStep g)^[k] init).toFinset ⊂
        ((reachStep g)^[k + 1] init).toFinset := by
      refine Finset.ssubset_iff_subset_ne.mpr ⟨hsub, ?_⟩
      intro heq
      refine hne (fun x => ?_)
      constructor
      · intro hx
        have h2 : x ∈ ((reachStep g)^[k + 1] init).toFinset := List.mem_toFinset.mpr hx
        rw [← heq] at h2
        exact List.mem_toFinset.mp h2
      · intro hx
        have h2 := hsub (List.mem_toFinset.mpr hx)
        exact List.mem_toFinset.mp h2
    have := Finset.card_lt_card hssub
    omega

theorem reach_stable (g : Graph) (ts : List TaskId) :
    ∀ x, x ∈ reachStep g (reach g ts) ↔ x ∈ reach g ts := by
  set init := ((ts.filter (fun t => (lookupTask g t).isSome)).dedup) with hinit
  have hkeysub : ∀ k, ((reachStep g)^[k] init).toFinset ⊆ (g.map Prod.fst).toFinset := by
    intro k x hx
    rw [List.mem_toFinset] at *
    exact mem_keys_of_lookup_isSome (iterate_reach_subset_keys g k init
      (fun t ht => (List.mem_filter.mp (List.mem_dedup.mp ht)).2) x hx)
  have hstage : ∃ j, j ≤ g.length ∧
      (∀ x, x ∈ (reachStep g)^[j + 1] init ↔ x ∈ (reachStep g)^[j] init) := by
    by_contra hc
    have hgrow := reachStep_card_growth g init (g.length + 1)
      (fun j hj hP => hc ⟨j, Nat.lt_succ_iff.mp hj, hP⟩)
    have hle : ((reachStep g)^[g.length + 1] init).toFinset.card ≤ g.length := by
      calc ((reachStep g)^[g.length + 1] init).toFinset.card
          ≤ (g.map Prod.fst).toFinset.card := Finset.card_le_card (hkeysub _)
        _ ≤ (g.map Prod.fst).length := List.toFinset_card_le _
        _ = g.length := by rw [List.length_map]
    omega
  obtain ⟨j, hj, hst⟩ := hstage
  have hN := reachStep_stable_propagate g init j hst g.length hj
  have hN1 := reachStep_stable_propagate g init j hst (g.length + 1) (Nat.le_succ_of_le hj)
  intro x
  show x ∈ reachStep g ((reachStep g)^[g.length] init) ↔ x ∈ (reachStep g)^[g.length] init
  have hrw : reachStep g ((reachStep g)^[g.length] init) =
      (reachStep g)^[g.length + 1] init :=
    (Function.iterate_succ_apply' (reachStep g) g.length init).symm
  rw [hrw]
  exact (hN1 x).trans (hN x).symm

theorem reach_closed (g : Graph) (ts : List TaskId) {t d : TaskId}
    (ht : t ∈ reach g ts) (hd : d ∈ depsOf g t) : d ∈ reach g ts :=
  (reach_stable g ts d).mp (mem_reachStep.mpr (Or.inr ⟨t, ht, hd⟩))

/-! Claim theorems, first group. -/

theorem execAllSt_spec (g : Graph) :
    ∀ (order : List TaskId) (tbl : Table),
    execAllSt g tbl order = (execAllAux g tbl order, g) := by
  intro order
  induction order with
  | nil => intro tbl; rfl
  | cons t rest ih =>
    intro tbl
    simp only [execAllSt, execAllAux]
    exact ih _

/-- Claim C1, counterexample: for the notebook graph
`{a: 1, b: (inc, a), x: 10, y: (inc, x), z: (add, b, y)}`, computing the
target `z` does NOT return 22 -- the direct computation in notebook cell 3
gives `inc(1)=2`, `inc(10)=11`, `add(2,11)=13`. -/
theorem run_dsk_z_ne_22 :
    run dsk "z" ≠ Except.ok (Except.ok (Value.vint 22)) := by
  intro h
  rw [show run dsk "z" = Except.ok (Except.ok (Value.vint 13)) from rfl] at h
  simp at h

/-- Claim C1, amended: for the graph `{a: literal 1, b: (inc, a),
x: literal 10, y: (inc, x), z: (add, b, y)}` with `inc(v)=v+1` and
`add(u,v)=u+v`, computing the target `z` returns 13. -/
theorem run_dsk_z_eq_13 :
    run dsk "z" = Except.ok (Except.ok (Value.vint 13)) := rfl

/-- Claim C2: for every graph whose reachable subgraph from the target is
acyclic, `run(graph, target)` completes without a scheduler error, and it
returns a value exactly when directly substituting dependency results and
evaluating the callables as plain nested function calls (the `Evals`
relation, the eager non-graph reference semantics) produces that value. -/
theorem run_refines_direct_eval :
    ∀ (g : Graph) (target : TaskId),
    Acyclic g (reach g [target]) →
    (∃ r, run g target = Except.ok r) ∧
    (∀ v, run g target = Except.ok (Except.ok v) ↔ Evals g target v) :=
  fun g target h =>
    runWith_eval_iff BackendKind.serial serialOrd (fun _ l => List.Perm.refl l) g target h

/-- Claim C2 witness: instantiating the refinement theorem on the
notebook's five-task graph at target `z` and value 13, with the acyclicity
hypothesis discharged by the explicit dispatch order a, x, b, y, z. -/
theorem run_refines_direct_eval_witness :
    run dsk "z" = Except.ok (Except.ok (Value.vint 13)) ↔
      Evals dsk "z" (Value.vint 13) :=
  (run_refines_direct_eval dsk "z" ⟨["a", "x", "b", "y", "z"], by decide⟩).2
    (Value.vint 13)

/-- The two-task cyclic graph: a depends on b, b depends on a. -/
def cycleGraph (f g' : Callable) : Graph :=
  [("a", TaskSpec.task f [Arg.base (BaseArg.ref "b")]),
   ("b", TaskSpec.task g' [Arg.base (BaseArg.ref "a")])]

set_option maxHeartbeats 2000000 in
/-- Claim C6: on the graph where TaskId `a` depends on `b` and `b`
depends on `a`, `run` raises CyclicGraphError naming one offending TaskId
(`b` when computing `a`, and `a` when computing `b`).  The theorem is
quantified over the two stored callables: the error is the same whatever
the callables do, so no task's callable is executed before the failure. -/
theorem cyclic_graph_fails_fast :
    ∀ (f g' : Callable),
    run (cycleGraph f g') "a" = Except.error (SchedErr.cyclic "b") ∧
    run (cycleGraph f g') "b" = Except.error (SchedErr.cyclic "a") :=
  fun _ _ => ⟨rfl, rfl⟩

/-- Claim C8: `compute` hands back the graph it was given unchanged, and
calling `compute` a second time on that returned graph and the same target
yields the identical result.  (Task callables are Lean functions and hence
referentially transparent by construction.) -/
theorem compute_is_readonly_and_idempotent :
    ∀ (g : Graph) (target : TaskId),
    (compute g target).2 = g ∧
    (compute ((compute g target).2) target).1 = (compute g target).1 := by
  have h2 : ∀ (g : Graph) (target : TaskId), (compute g target).2 = g := by
    intro g target
    unfold compute
    cases h : topoOrder g [target] with
    | error e => rfl
    | ok order => simp [execAllSt_spec]
  intro g target
  exact ⟨h2 g target, by rw [h2 g target]⟩

/-! Claim theorems, second group. -/


/-- Claim C4: a task is never dispatched before every TaskId it directly
depends on has produced a result -- every dispatch order the scheduler
produces respects dependencies; in the three-file load/count/sum graph
every dependency-respecting order dispatches `total` only after `na`,
`nb` and `nc` have all resolved, while the independent load/count pairs
may run in any order (two orders differing on the pairs are both valid). -/
theorem dispatch_waits_for_dependencies :
    (∀ (g : Graph) (ts order : List TaskId), topoOrder g ts = Except.ok order →
      respectsDeps g [] order = true) ∧
    (∀ (fs : String → Nat) (order pre post : List TaskId),
      respectsDeps (dskCsv fs) [] order = true →
      order = pre ++ "total" :: post →
      "na" ∈ pre ∧ "nb" ∈ pre ∧ "nc" ∈ pre) ∧
    (∀ fs : String → Nat,
      respectsDeps (dskCsv fs) [] ["a", "na", "b", "nb", "c", "nc", "total"] = true ∧
      respectsDeps (dskCsv fs) [] ["c", "nc", "b", "nb", "a", "na", "total"] = true) := by
  refine ⟨?_, ?_, ?_⟩
  · intro g ts order h
    exact (topoOrderWith_props g serialOrd (fun _ l => List.Perm.refl l) ts order h).2.2
  · intro fs order pre post hresp horder
    subst horder
    have hds := respectsDeps_deps_subset (dskCsv fs) pre [] post "total" hresp
    have hdeps : depsOf (dskCsv fs) "total" = ["na", "nb", "nc"] := rfl
    refine ⟨?_, ?_, ?_⟩
    · rcases hds "na" (by rw [hdeps]; simp) with h | h
      · simp at h
      · exact h
    · rcases hds "nb" (by rw [hdeps]; simp) with h | h
      · simp at h
      · exact h
    · rcases hds "nc" (by rw [hdeps]; simp) with h | h
      · simp at h
      · exact h
  · intro fs
    exact ⟨rfl, rfl⟩

/-- Claim C4 witness: the serial scheduler's dispatch order for the
notebook graph at target `z` respects dependencies. -/
theorem dispatch_waits_for_dependencies_witness :
    respectsDeps dsk [] ["a", "x", "b", "y", "z"] = true :=
  dispatch_waits_for_dependencies.1 dsk ["z"] ["a", "x", "b", "y", "z"] rfl

/-- A completion-order oracle that reverses every dispatched batch. -/
def revOrd : Nat → List TaskId → List TaskId := fun _ l => l.reverse

/-- Claim C7: for a fixed graph and target, the value returned by `run`
is the same under the serial, thread-pool and process-pool backends, for
every completion order the concurrent pools can produce: changing the
backend configuration never changes the final result. -/
theorem backend_equivalence :
    ∀ (bk1 bk2 : BackendKind) (o1 o2 : Nat → List TaskId → List TaskId)
    (g : Graph) (target : TaskId),
    (∀ i l, (o1 i l).Perm l) → (∀ i l, (o2 i l).Perm l) →
    runWith bk1 o1 g target = runWith bk2 o2 g target :=
  fun bk1 bk2 o1 o2 g target h1 h2 =>
    runWith_backend_agree bk1 bk2 o1 o2 h1 h2 g target

/-- Claim C7 witness: the serial backend and a two-worker process pool
whose batches complete in reverse order agree on the notebook graph. -/
theorem backend_equivalence_witness :
    runWith BackendKind.serial serialOrd dsk "z" =
      runWith (BackendKind.processPool 2) revOrd dsk "z" :=
  backend_equivalence BackendKind.serial (BackendKind.processPool 2) serialOrd revOrd
    dsk "z" (fun _ l => List.Perm.refl l) (fun _ l => List.reverse_perm l)

/-! Claim theorems: the delayed wrapper records without invoking. -/

theorem mergeArgGraphs_lits : ∀ vs : List Value,
    mergeArgGraphs (vs.map DelayedArg.lit) = [] := by
  intro vs
  induction vs with
  | nil => rfl
  | cons v rest ih => simpa [mergeArgGraphs] using ih

theorem map_delayedArgToArg_lits (vs : List Value) :
    (vs.map DelayedArg.lit).map delayedArgToArg =
      vs.map (fun v => Arg.base (BaseArg.lit v)) := by
  simp [List.map_map, delayedArgToArg, Function.comp]

theorem resolveArgs_lit_map (tbl : Table) : ∀ vs : List Value,
    resolveArgs tbl (vs.map (fun v => Arg.base (BaseArg.lit v))) = Except.ok vs := by
  intro vs
  induction vs with
  | nil => rfl
  | cons v rest ih => simp [resolveArgs, resolveArg, resolveBase, ih]

theorem flatMap_argRefs_lits : ∀ vs : List Value,
    (vs.map (fun v => Arg.base (BaseArg.lit v))).flatMap argRefs = [] := by
  intro vs
  induction vs with
  | nil => rfl
  | cons v rest ih => simp [argRefs, baseRefs, ih]

theorem delayed_lit_graph (f : Callable) (vs : List Value) :
    delayed f (vs.map DelayedArg.lit) =
      ⟨"task-0", [("task-0",
        TaskSpec.task f (vs.map (fun v => Arg.base (BaseArg.lit v))))]⟩ := by
  unfold delayed
  rw [mergeArgGraphs_lits, map_delayedArgToArg_lits]
  rfl

theorem run_delayed_lit (f : Callable) (vs : List Value) :
    run (delayed f (vs.map DelayedArg.lit)).graph
        (delayed f (vs.map DelayedArg.lit)).taskId =
      Except.ok (f vs) := by
  rw [delayed_lit_graph]
  set g1 : Graph :=
    [("task-0", TaskSpec.task f (vs.map (fun v => Arg.base (BaseArg.lit v))))] with hg1
  show run g1 "task-0" = Except.ok (f vs)
  have hlook : lookupTask g1 "task-0" =
      some (TaskSpec.task f (vs.map (fun v => Arg.base (BaseArg.lit v)))) := by
    simp [hg1, lookupTask, List.lookup]
  have hdeps : depsOf g1 "task-0" = [] := by
    rw [depsOf_eq]
    unfold refsOf
    rw [hlook]
    show ((vs.map (fun v => Arg.base (BaseArg.lit v))).flatMap argRefs).filter _ = []
    rw [flatMap_argRefs_lits]
    rfl
  have hreach : reach g1 ["task-0"] = ["task-0"] := by
    show (reachStep g1)^[1] ((["task-0"].filter
      (fun t => (lookupTask g1 t).isSome)).dedup) = ["task-0"]
    rw [Function.iterate_one]
    have hinit : ((["task-0"].filter
        (fun t => (lookupTask g1 t).isSome)).dedup : List TaskId) = ["task-0"] := by
      simp [hlook]
    rw [hinit]
    unfold reachStep
    simp [hdeps]
  have htopo : topoOrderWith g1 serialOrd ["task-0"] = Except.ok ["task-0"] := by
    unfold topoOrderWith
    rw [hreach]
    show roundsAux g1 serialOrd 1 0 [] ["task-0"] = Except.ok ["task-0"]
    rw [roundsAux_cons]
    have hready : isReady g1 [] "task-0" = true := by simp [isReady, hdeps]
    simp [hready, serialOrd, roundsAux_nil]
  have hexec : execTask g1 [] "task-0" = f vs := by
    simp only [execTask, hlook, resolveArgs_lit_map]
  show runWith BackendKind.serial serialOrd g1 "task-0" = Except.ok (f vs)
  unfold runWith
  rw [show oracleFor BackendKind.serial serialOrd = serialOrd from rfl, htopo]
  show Except.ok (tableGet (execAll g1 ["task-0"]) "task-0") = Except.ok (f vs)
  rw [show execAll g1 ["task-0"] = [("task-0", execTask g1 [] "task-0")] from rfl]
  rw [hexec]
  simp [tableGet, List.lookup]

/-- Claim C3: calling the wrapper `delayed(f)` with arguments does not
invoke `f`: the minted TaskId and the entire recorded graph shape are
independent of the wrapped callable (only the stored callable slot refers
to it), the call itself is total (raises nothing), and for a callable that
always raises, the exception surfaces only when `run` executes the graph,
as the recorded failure of the new task. -/
theorem delayed_does_not_invoke :
    ∀ (f f' : Callable) (args : List DelayedArg),
    ((delayed f args).taskId = (delayed f' args).taskId ∧
      graphShape (delayed f args).graph = graphShape (delayed f' args).graph) ∧
    ∀ (e : Err) (vs : List Value),
    run (delayed (fun _ => Except.error e) (vs.map DelayedArg.lit)).graph
        (delayed (fun _ => Except.error e) (vs.map DelayedArg.lit)).taskId =
      Except.ok (Except.error e) := by
  intro f f' args
  constructor
  · exact ⟨rfl, by simp [delayed, graphShape]⟩
  · intro e vs
    exact run_delayed_lit (fun _ => Except.error e) vs

/-! Claim theorems: list arguments are resolved elementwise. -/

theorem dskCsv_acyclic (fs : String → Nat) :
    Acyclic (dskCsv fs) (reach (dskCsv fs) ["total"]) := by
  refine ⟨["a", "b", "c", "na", "nb", "nc", "total"], by decide, ?_, ?_, rfl⟩
  · -- everything reachable is among the seven keys
    intro t ht
    have hsome := reach_subset_keys (dskCsv fs) ["total"] t ht
    have hk := mem_keys_of_lookup_isSome hsome
    rw [show (dskCsv fs).map Prod.fst =
      ["a", "b", "c", "na", "nb", "nc", "total"] from rfl] at hk
    exact hk
  · -- each of the seven tasks is reachable from the target
    have htotal : "total" ∈ reach (dskCsv fs) ["total"] :=
      mem_reach_target _ _ "total" (by simp) rfl
    have hna := reach_closed _ _ htotal
      (show "na" ∈ depsOf (dskCsv fs) "total" by
        rw [show depsOf (dskCsv fs) "total" = ["na", "nb", "nc"] from rfl]; simp)
    have hnb := reach_closed _ _ htotal
      (show "nb" ∈ depsOf (dskCsv fs) "total" by
        rw [show depsOf (dskCsv fs) "total" = ["na", "nb", "nc"] from rfl]; simp)
    have hnc := reach_closed _ _ htotal
      (show "nc" ∈ depsOf (dskCsv fs) "total" by
        rw [show depsOf (dskCsv fs) "total" = ["na", "nb", "nc"] from rfl]; simp)
    have ha := reach_closed _ _ hna
      (show "a" ∈ depsOf (dskCsv fs) "na" by
        rw [show depsOf (dskCsv fs) "na" = ["a"] from rfl]; simp)
    have hb := reach_closed _ _ hnb
      (show "b" ∈ depsOf (dskCsv fs) "nb" by
        rw [show depsOf (dskCsv fs) "nb" = ["b"] from rfl]; simp)
    have hc := reach_closed _ _ hnc
      (show "c" ∈ depsOf (dskCsv fs) "nc" by
        rw [show depsOf (dskCsv fs) "nc" = ["c"] from rfl]; simp)
    intro t ht
    simp only [List.mem_cons, List.not_mem_nil, or_false] at ht
    rcases ht with rfl | rfl | rfl | rfl | rfl | rfl | rfl
    · exact ha
    · exact hb
    · exact hc
    · exact hna
    · exact hnb
    · exact hnc
    · exact htotal

theorem dskCsv_evals_total (fs : String → Nat) :
    Evals (dskCsv fs) "total"
      (Value.vint ((fs "data/accounts.0.csv" : Int) +
        fs "data/accounts.1.csv" + fs "data/accounts.2.csv")) := by
  have ha : Evals (dskCsv fs) "a"
      (Value.vlist (List.replicate (fs "data/accounts.0.csv") (Value.vstr "row"))) :=
    Evals.task rfl
      (EvalsArgs.cons (EvalsArg.base EvalsBase.lit) EvalsArgs.nil) rfl
  have hb : Evals (dskCsv fs) "b"
      (Value.vlist (List.replicate (fs "data/accounts.1.csv") (Value.vstr "row"))) :=
    Evals.task rfl
      (EvalsArgs.cons (EvalsArg.base EvalsBase.lit) EvalsArgs.nil) rfl
  have hc : Evals (dskCsv fs) "c"
      (Value.vlist (List.replicate (fs "data/accounts.2.csv") (Value.vstr "row"))) :=
    Evals.task rfl
      (EvalsArgs.cons (EvalsArg.base EvalsBase.lit) EvalsArgs.nil) rfl
  have hna : Evals (dskCsv fs) "na" (Value.vint (fs "data/accounts.0.csv")) :=
    Evals.task rfl
      (EvalsArgs.cons (EvalsArg.base (EvalsBase.ref ha)) EvalsArgs.nil)
      (by simp [lenC])
  have hnb : Evals (dskCsv fs) "nb" (Value.vint (fs "data/accounts.1.csv")) :=
    Evals.task rfl
      (EvalsArgs.cons (EvalsArg.base (EvalsBase.ref hb)) EvalsArgs.nil)
      (by simp [lenC])
  have hnc : Evals (dskCsv fs) "nc" (Value.vint (fs "data/accounts.2.csv")) :=
    Evals.task rfl
      (EvalsArgs.cons (EvalsArg.base (EvalsBase.ref hc)) EvalsArgs.nil)
      (by simp [lenC])
  refine Evals.task rfl
    (EvalsArgs.cons (EvalsArg.arr
      (EvalsBases.cons (EvalsBase.ref hna)
        (EvalsBases.cons (EvalsBase.ref hnb)
          (EvalsBases.cons (EvalsBase.ref hnc) EvalsBases.nil)))) EvalsArgs.nil) ?_
  simp [sumC, sumInts, Except.map]
  ring

/-- Claim C9: a TaskSpec argument may be a list whose elements are TaskId
references, and the executor resolves each referenced TaskId to its
computed value inside the list before invoking the callable: in the csv
graph the node `(sum, ['na', 'nb', 'nc'])` receives the list of the three
computed counts, so `total` equals the sum of the three file lengths, for
every file system. -/
theorem list_argument_resolved_elementwise :
    ∀ fs : String → Nat,
    run (dskCsv fs) "total" =
      Except.ok (Except.ok (Value.vint ((fs "data/accounts.0.csv" : Int) +
        fs "data/accounts.1.csv" + fs "data/accounts.2.csv"))) := by
  intro fs
  exact ((runWith_eval_iff BackendKind.serial serialOrd (fun _ l => List.Perm.refl l)
    (dskCsv fs) "total" (dskCsv_acyclic fs)).2 _).mpr (dskCsv_evals_total fs)

/-! Claim theorems: partial failure isolation. -/

/-- Claim C5: for `run(graph, {x, y})` where target `x` depends on a task
whose direct evaluation fails while target `y` evaluates to a value, the
result records a success value for `y` and a recorded failure for `x`:
the failing branch does not abort the independent branch. -/
theorem partial_failure_isolated :
    ∀ (g : Graph) (x y : TaskId) (vy : Value),
    Acyclic g (reach g [x, y]) →
    Evals g y vy →
    (∀ v, ¬ Evals g x v) →
    ∃ res, runTargets g [x, y] = Except.ok res ∧
      res.lookup y = some (Except.ok vy) ∧
      ∃ e, res.lookup x = some (Except.error e) := by
  intro g x y vy hacyc hy hx
  have hxy : ¬ (x = y) := fun h => hx vy (h ▸ hy)
  have hperm : ∀ i (l : List TaskId), (serialOrd i l).Perm l := fun _ l => List.Perm.refl l
  obtain ⟨order, hord⟩ := topoOrderWith_complete g serialOrd hperm [x, y] hacyc
  obtain ⟨hmem, hnd, hresp⟩ := topoOrderWith_props g serialOrd hperm [x, y] order hord
  have hkeys : ∀ u, u ∈ order → (lookupTask g u).isSome :=
    fun u hu => reach_subset_keys g [x, y] u ((hmem u).mp hu)
  have hrt : runTargets g [x, y] =
      Except.ok [(x, tableGet (execAll g order) x),
        (y, tableGet (execAll g order) y)] := by
    unfold runTargets runTargetsWith
    rw [show oracleFor BackendKind.serial serialOrd = serialOrd from rfl, hord]
    rfl
  refine ⟨_, hrt, ?_, ?_⟩
  · have hyin : y ∈ order :=
      (hmem y).mpr (mem_reach_target g [x, y] y (by simp) (evals_isSome hy))
    have hly := execAll_complete g order hnd hresp hkeys y vy hy hyin
    rw [lookup_cons_ne _ _ _ _ hxy]
    rw [show tableGet (execAll g order) y = Except.ok vy from by
      unfold tableGet; rw [hly]]
    simp [List.lookup]
  · have hex : ∃ e, tableGet (execAll g order) x = Except.error e := by
      unfold tableGet
      cases hlx : (execAll g order).lookup x with
      | none => exact ⟨_, rfl⟩
      | some r =>
        cases r with
        | ok v => exact absurd (execAll_sound g order hnd hresp hkeys x v hlx) (hx v)
        | error e => exact ⟨e, rfl⟩
    obtain ⟨e, he⟩ := hex
    refine ⟨e, ?_⟩
    rw [show ([(x, tableGet (execAll g order) x),
      (y, tableGet (execAll g order) y)]).lookup x =
        some (tableGet (execAll g order) x) from by simp [List.lookup]]
    rw [he]

/-- A callable that always fails. -/
def failC : Callable := fun _ => Except.error "boom"

/-- A graph with one failing branch (boom, x) and one independent
succeeding literal (y). -/
def dskFail : Graph :=
  [("boom", TaskSpec.task failC []),
   ("x", TaskSpec.task inc [Arg.base (BaseArg.ref "boom")]),
   ("y", TaskSpec.lit (Value.vint 5))]

theorem dskFail_no_eval_x : ∀ v, ¬ Evals dskFail "x" v := by
  intro v h
  cases h with
  | lit hl =>
    rw [show lookupTask dskFail "x" =
      some (TaskSpec.task inc [Arg.base (BaseArg.ref "boom")]) from rfl] at hl
    simp at hl
  | task hl hargs hf =>
    have heq : some (TaskSpec.task inc [Arg.base (BaseArg.ref "boom")]) =
        some (TaskSpec.task _ _) :=
      (show lookupTask dskFail "x" =
        some (TaskSpec.task inc [Arg.base (BaseArg.ref "boom")]) from rfl).symm.trans hl
    injection heq with heq
    injection heq with hfeq hargseq
    subst hfeq
    subst hargseq
    cases hargs with
    | cons harg hnil =>
      cases harg with
      | base hb =>
        cases hb with
        | ref hev =>
          cases hev with
          | lit hl2 =>
            rw [show lookupTask dskFail "boom" =
              some (TaskSpec.task failC []) from rfl] at hl2
            simp at hl2
          | task hl2 hargs2 hf2 =>
            have heq2 : some (TaskSpec.task failC ([] : List Arg)) =
                some (TaskSpec.task _ _) :=
              (show lookupTask dskFail "boom" =
                some (TaskSpec.task failC []) from rfl).symm.trans hl2
            injection heq2 with heq2
            injection heq2 with hfeq2 hargseq2
            subst hfeq2
            cases hf2

/-- Claim C5 witness: on the graph with a failing `boom` task feeding `x`
and an independent literal `y`, the multi-target run records the failure
for `x` and the value 5 for `y`. -/
theorem partial_failure_isolated_witness :
    ∃ res, runTargets dskFail ["x", "y"] = Except.ok res ∧
      res.lookup "y" = some (Except.ok (Value.vint 5)) ∧
      ∃ e, res.lookup "x" = some (Except.error e) :=
  partial_failure_isolated dskFail "x" "y" (Value.vint 5)
    ⟨["y", "boom", "x"], by decide⟩ (Evals.lit rfl) dskFail_no_eval_x

/-! Claim theorems: the Monte-Carlo estimator. -/

theorem is_inside_circle_le_one (p : ℚ × ℚ) : is_inside_circle p ≤ 1 := by
  unfold is_inside_circle
  split <;> omega

theorem count_sum_le (sample : Nat → ℚ × ℚ) (n : Nat) :
    ((List.range n).map (fun i => is_inside_circle (sample i))).sum ≤ n := by
  have h := List.sum_le_card_nsmul
    ((List.range n).map (fun i => is_inside_circle (sample i))) 1
    (by
      intro x hx
      simp only [List.mem_map] at hx
      obtain ⟨i, _, rfl⟩ := hx
      exact is_inside_circle_le_one (sample i))
  simpa using h

/-- Claim C10: `estimate_pi` divides by its `nsamples` argument without a
guard, so for `nsamples = 0` it fails with a division-by-zero error
instead of returning a value; for every `nsamples` at least 1 it returns
`4 * k / nsamples` where `k`, the number of samples inside the quarter
circle, satisfies `k ≤ nsamples`, so the result lies in the interval
from 0 to 4. -/
theorem estimate_pi_div_by_zero_and_bounds :
    ∀ (sample : Nat → ℚ × ℚ) (n : Nat),
    (estimate_pi sample 0 =
      Except.error "ZeroDivisionError: float division by zero") ∧
    (1 ≤ n → ∃ k : Nat, k ≤ n ∧
      estimate_pi sample n = Except.ok (4 * (k : ℚ) / n) ∧
      0 ≤ 4 * (k : ℚ) / n ∧ 4 * (k : ℚ) / n ≤ 4) := by
  intro sample n
  constructor
  · rfl
  · intro hn
    refine ⟨((List.range n).map (fun i => is_inside_circle (sample i))).sum,
      count_sum_le sample n, ?_, ?_, ?_⟩
    · unfold estimate_pi
      rw [if_neg (by omega)]
    · positivity
    · rw [div_le_iff₀ (by positivity)]
      have hk : ((((List.range n).map (fun i => is_inside_circle (sample i))).sum : Nat) : ℚ)
          ≤ (n : ℚ) := by
        exact_mod_cast count_sum_le sample n
      nlinarith

/-- Claim C10 witness: instantiating the bounds at four samples of the
fixed point (1/2, 1/2). -/
theorem estimate_pi_witness :
    ∃ k : Nat, k ≤ 4 ∧
      estimate_pi (fun _ => ((1 : ℚ) / 2, (1 : ℚ) / 2)) 4 =
        Except.ok (4 * (k : ℚ) / 4) ∧
      0 ≤ 4 * (k : ℚ) / 4 ∧ 4 * (k : ℚ) / 4 ≤ 4 :=
  (estimate_pi_div_by_zero_and_bounds (fun _ => ((1 : ℚ) / 2, (1 : ℚ) / 2)) 4).2
    (by omega)

end DaskTutorial
